import Mathlib

/-!
Verification of the visibility-subset engine of the decision-tree viewer.

The development shallowly embeds the two visibility representations of the
repository: the lazy sparse-id representation (`Nodes.py`: `expand_children`,
`hide_children`, `on_tap_node`, `expand_all`, `_validate_visiblity_state`) and
the eager materialized representation (`Elements.py`: `set_child_visible`,
`set_child_hidden`, `reset`, `set_visiblity`), together with the error path of
the build-once holder (`NodeHolder._initialize`).

Node arrays are modelled as `List Int` (the arrays are `int32` numpy arrays;
no arithmetic that could overflow 32 bits occurs in the modelled code), and
the node arena as a list of nodes indexed by id.
-/

namespace DecTree

/-- Modelled from the spec: a node of the decision tree produced by the
external `decision_tree` generator (the generator itself is not part of the
core sources).  Per the spec's data model a node carries an optional parent
back-reference and at most two children `left`/`right`; the node's integer id
is its index in the arena.  -/
structure DTNode where
  parent : Option Nat
  left : Option Nat
  right : Option Nat
deriving DecidableEq, Repr

/-- Modelled from the spec: the arena of all nodes of one built tree
(`node_holder.nodes`), indexed by node id. -/
structure DTree where
  nodes : List DTNode
deriving DecidableEq, Repr

/-- Node lookup by id (out-of-range ids give an empty node; well-formed
trees never look those up). -/
def nodeAt (t : DTree) (i : Nat) : DTNode := t.nodes.getD i ⟨none, none, none⟩

/-- `len(self.node_holder.nodes)`. -/
def numNodes (t : DTree) : Nat := t.nodes.length

/-- The id of the parent of node `i` (`node.parent.id`); 0 for the root. -/
def parentId (t : DTree) (i : Nat) : Nat := ((nodeAt t i).parent).getD 0

/-- The children of node `i` in the iteration order `(node.left, node.right)`
used throughout the source. -/
def childrenIds (t : DTree) (i : Nat) : List Nat :=
  (nodeAt t i).left.toList ++ (nodeAt t i).right.toList

/-- Modelled from the spec: structural well-formedness of the arena.  Ids are
"assigned in construction order such that every node's id is strictly greater
than its parent's id"; node 0 is the root (no parent); parent and `left`/
`right` back-references are mutually consistent; a left sibling precedes its
right sibling. -/
def WFBasic (t : DTree) : Prop :=
  t.nodes ≠ [] ∧
  (nodeAt t 0).parent = none ∧
  (∀ i, i < numNodes t → 0 < i →
    (nodeAt t i).parent ≠ none ∧ parentId t i < i ∧
      ((nodeAt t (parentId t i)).left = some i ∨
        (nodeAt t (parentId t i)).right = some i)) ∧
  (∀ p, p < numNodes t → ∀ c, (nodeAt t p).left = some c →
    c < numNodes t ∧ p < c ∧ (nodeAt t c).parent = some p) ∧
  (∀ p, p < numNodes t → ∀ c, (nodeAt t p).right = some c →
    c < numNodes t ∧ p < c ∧ (nodeAt t c).parent = some p) ∧
  (∀ p, p < numNodes t → ∀ a, (nodeAt t p).left = some a →
    ∀ b, (nodeAt t p).right = some b → a < b)

/-- Modelled from the spec: full well-formedness of a built tree.  On top of
`WFBasic`, ids are assigned in breadth-first construction order, which the
spec expresses as BFS discovery order coinciding with ascending id order
("already BFS-sorted-by-discovery, then normalized to ascending id order");
equivalently, the parent id is a monotone function of the child id. -/
def WF (t : DTree) : Prop :=
  WFBasic t ∧
  ∀ i, i < numNodes t → 1 ≤ i → i + 1 < numNodes t →
    parentId t i ≤ parentId t (i + 1)

/-- `DISPLAY_DEPTH` from `Config.py`. -/
def DISPLAY_DEPTH : Nat := 3

/-- `MAX_ELEMENTS` from `Config.py`. -/
def MAX_ELEMENTS : Nat := 500

/-- Python sequence indexing `nodes[i]` for a possibly negative int index:
the effective nonnegative index, or `none` for an `IndexError`. -/
def pyIdx (n : Nat) (i : Int) : Option Nat :=
  if 0 ≤ i ∧ i < (n : Int) then some i.toNat
  else if -(n : Int) ≤ i ∧ i < 0 then some ((n : Int) + i).toNat
  else none

/-- `np.searchsorted(arr, v)` with the default left side: the number of
leading elements strictly below `v` (for a sorted array, the insertion
point). -/
def searchsorted (s : List Int) (v : Int) : Nat :=
  (s.takeWhile (fun x => decide (x < v))).length

/-- `Nodes.node_id_visiblity`: `i = searchsorted(v); i < len and s[i] == v`. -/
def node_id_visiblity (s : List Int) (v : Int) : Bool :=
  match s.get? (searchsorted s v) with
  | some x => x == v
  | none => false

/-- `Nodes.node_is_leaf`: `node.left is None and node.right is None`. -/
def node_is_leaf (t : DTree) (i : Nat) : Bool :=
  (nodeAt t i).left.isNone && (nodeAt t i).right.isNone

/-- `Nodes.node_has_hidden_child`: some existing child is not visible. -/
def node_has_hidden_child (t : DTree) (s : List Int) (i : Nat) : Bool :=
  (childrenIds t i).any (fun c => !(node_id_visiblity s (Int.ofNat c)))

/-- Classic two-pointer merge of two arrays (the underlying pass of
`sortednp.merge`), fuel-indexed so that it reduces structurally; the fuel
`a.length + b.length` used by `mergeKeep` always suffices. -/
def mergeKeepF : Nat → List Int → List Int → List Int
  | 0, xs, ys => xs ++ ys
  | _ + 1, [], ys => ys
  | _ + 1, x :: xs, [] => x :: xs
  | f + 1, x :: xs, y :: ys =>
    if x ≤ y then x :: mergeKeepF f xs (y :: ys)
    else y :: mergeKeepF f (x :: xs) ys

/-- Classic two-pointer merge of two arrays. -/
def mergeKeep (a b : List Int) : List Int :=
  mergeKeepF (a.length + b.length) a b

/-- Collapse runs of equal adjacent values (the `duplicates=snp.DROP`
treatment of `sortednp.merge`). -/
def dedupSorted : List Int → List Int
  | [] => []
  | [x] => [x]
  | x :: y :: r => if x = y then dedupSorted (y :: r) else x :: dedupSorted (y :: r)

/-- `snp.merge(a, b, duplicates=snp.DROP)`: sorted merge with all duplicate
values dropped from the output. -/
def snpMergeDrop (a b : List Int) : List Int := dedupSorted (mergeKeep a b)

/-- One breadth-first level step: the children of a level's nodes, in queue
order. -/
def nextLevel (t : DTree) (l : List Nat) : List Nat := l.flatMap (childrenIds t)

/-- The id lists appended by the level-by-level breadth-first loop of
`Nodes.expand_children`: descendants of the queue's nodes for `d` more
levels, in discovery order. -/
def expandLevels (t : DTree) : Nat → List Nat → List Nat
  | 0, _ => []
  | d + 1, q => nextLevel t q ++ expandLevels t d (nextLevel t q)

/-- `Nodes.expand_children(node)`: collect all descendants of `n` down to
`DISPLAY_DEPTH` levels breadth-first, then merge them into the visibility
array dropping duplicates. -/
def expand_children (t : DTree) (s : List Int) (n : Nat) : List Int :=
  snpMergeDrop s ((expandLevels t DISPLAY_DEPTH [n]).map Int.ofNat)

/-- Helper of `npDelete`: walk the list with its running position. -/
def npDeleteAux (ds : List Nat) : Nat → List Int → List Int
  | _, [] => []
  | i, x :: r =>
    if i ∈ ds then npDeleteAux ds (i + 1) r else x :: npDeleteAux ds (i + 1) r

/-- `np.delete(s, ds)`: drop the elements whose positions occur in `ds`. -/
def npDelete (s : List Int) (ds : List Nat) : List Int :=
  npDeleteAux ds 0 s

/-- The breadth-first loop of `Nodes.hide_children`: starting from queue `q`,
for each popped node append the `searchsorted` position of every currently
visible child to the delete list and enqueue that child. -/
def hideLoop (t : DTree) (s : List Int) : Nat → List Nat → List Nat
  | 0, _ => []
  | _ + 1, [] => []
  | f + 1, n :: q =>
    let hits := (childrenIds t n).filter (fun c => node_id_visiblity s (Int.ofNat c))
    hits.map (fun c => searchsorted s (Int.ofNat c)) ++ hideLoop t s f (q ++ hits)

/-- `Nodes.hide_children(node)`: delete from the visibility array every
descendant of `n` reachable through a chain of visible nodes. -/
def hide_children (t : DTree) (s : List Int) (n : Nat) : List Int :=
  npDelete s (hideLoop t s (numNodes t + 1) [n])

/-- `Nodes.on_tap_node(node_id)`: dispatch of a tap.  Returns `none` for a
raised Python exception (never happens on valid states). -/
def on_tap_node (t : DTree) (s : List Int) (node_id : Int) : Option (List Int) :=
  if (numNodes t : Int) ≤ node_id then some s
  else if node_id_visiblity s node_id = false then some s
  else
    match pyIdx (numNodes t) node_id with
    | none => none
    | some i =>
      if node_is_leaf t i then some s
      else if node_has_hidden_child t s i then some (expand_children t s i)
      else some (hide_children t s i)

/-- One push of `Nodes.expand_all`: `if tot < MAX_ELEMENTS and child is not
None: tot += 1; Q.append(child)`. -/
def pushChild (tot : Nat) (c : Option Nat) : List Nat × Nat :=
  match c with
  | some c => if tot < MAX_ELEMENTS then ([c], tot + 1) else ([], tot)
  | none => ([], tot)

/-- Both pushes of one `Nodes.expand_all` iteration, left then right. -/
def pushStep (t : DTree) (n : Nat) (tot : Nat) : List Nat × Nat :=
  let l := pushChild tot (nodeAt t n).left
  let r := pushChild l.2 (nodeAt t n).right
  (l.1 ++ r.1, r.2)

/-- The loop of `Nodes.expand_all`: `while Q and tot < MAX_ELEMENTS`, popping
a node into the element list and pushing its children under the budget. -/
def eaLoop (t : DTree) : Nat → List Nat → Nat → List Nat × Nat
  | 0, _, tot => ([], tot)
  | _ + 1, [], tot => ([], tot)
  | f + 1, n :: q, tot =>
    if tot < MAX_ELEMENTS then
      let s := pushStep t n tot
      let rest := eaLoop t f (q ++ s.1) s.2
      (n :: rest.1, rest.2)
    else ([], tot)

/-- `Nodes.expand_all()`: replace the visibility array with the breadth-first
prefix of the tree under the `MAX_ELEMENTS` budget; return the new array and
`tot < MAX_ELEMENTS`. -/
def expand_all (t : DTree) : List Int × Bool :=
  let r := eaLoop t (numNodes t + 1) [0] 1
  (r.1.map Int.ofNat, decide (r.2 < MAX_ELEMENTS))

/-- Plain breadth-first pop sequence (the `expand_all` loop with no element
budget); used to relate `expand_all` to a full traversal. -/
def bfsLoop (t : DTree) : Nat → List Nat → List Nat
  | 0, _ => []
  | _ + 1, [] => []
  | f + 1, n :: q => n :: bfsLoop t f (q ++ childrenIds t n)

/-- The loop of `Nodes._validate_visiblity_state` over the tail of the
supplied array; `acc` is the accepted list (the Python `valid` list, whose
content always equals the `in_valid` set).  `none` models a raised Python
exception: an `IndexError` from `nodes[node_id]` or an `AttributeError` from
`node.parent.id` when the indexed node is the root. -/
def validateLoop (t : DTree) : List Int → List Int → Option (List Int)
  | [], acc => some acc
  | x :: r, acc =>
    if (numNodes t : Int) ≤ x then some acc
    else
      match pyIdx (numNodes t) x with
      | none => none
      | some i =>
        match (nodeAt t i).parent with
        | none => none
        | some p =>
          if (p : Int) ∈ acc then validateLoop t r (acc ++ [x])
          else validateLoop t r acc

/-- `Nodes._validate_visiblity_state(arr)`: start from `[0]` and walk the
array from its second element onward. -/
def validate_visiblity_state (t : DTree) (input : List Int) : Option (List Int) :=
  validateLoop t (input.drop 1) [0]

/-- Walk written from the spec's words for `validate` (the spec-side
definition of the refinement claim): "Walks the array from its second element
onward; any id at or beyond the current tree's node count truncates
processing at that point.  For each remaining id, it is kept only if its
parent id has already been accepted into the validated result; ids are
otherwise dropped in place", starting from the root id 0. -/
def specWalk (t : DTree) : List Int → List Int → List Int
  | [], acc => acc
  | x :: r, acc =>
    if (numNodes t : Int) ≤ x then acc
    else if (parentId t x.toNat : Int) ∈ acc then specWalk t r (acc ++ [x])
    else specWalk t r acc

/-- The validated array as described by the spec (see `specWalk`). -/
def specValidate (t : DTree) (input : List Int) : List Int :=
  specWalk t (input.drop 1) [0]

/-- Order-connectivity of an id array: every non-root entry's parent id
occurs at an earlier position. -/
def PrefixClosed (t : DTree) (l : List Int) : Prop :=
  ∀ k, k < l.length → l.getD k 0 ≠ 0 →
    (parentId t (l.getD k 0).toNat : Int) ∈ l.take k

/-- The initial visibility array built by `Nodes.__init__` when no state
string is supplied: `[0]` expanded at the root. -/
def initState (t : DTree) : List Int := expand_children t [(0 : Int)] 0

/-- A structurally valid sparse visibility state: strictly ascending (hence
duplicate free), containing the root id 0, every member a valid id of the
current tree, and every non-root member's parent id also a member. -/
def ValidState (t : DTree) (s : List Int) : Prop :=
  s.Pairwise (· < ·) ∧ (0 : Int) ∈ s ∧
    ∀ x ∈ s, 0 ≤ x ∧ x < (numNodes t : Int) ∧
      (x ≠ 0 → (parentId t x.toNat : Int) ∈ s)

/-- `x` is exactly `k` child steps below `n` in the tree. -/
inductive StepsDown (t : DTree) : Nat → Nat → Nat → Prop
  | refl (n : Nat) : StepsDown t n n 0
  | step {n p c k} : StepsDown t n p k → c ∈ childrenIds t p → StepsDown t n c (k + 1)

/-- `x` is a strict descendant of `n` reachable from `n` through a chain of
nodes that are all visible under `vis` (the node `n` itself is not
required to be visible).  This is the set of nodes a hide cascade removes. -/
inductive VReach (t : DTree) (vis : Nat → Bool) : Nat → Nat → Prop
  | child {n c} : c ∈ childrenIds t n → vis c = true → VReach t vis n c
  | step {n m c} : VReach t vis n m → c ∈ childrenIds t m → vis c = true →
      VReach t vis n c

/-- The visibility predicate induced by a sparse visibility array. -/
def visB (s : List Int) (c : Nat) : Bool := node_id_visiblity s (Int.ofNat c)

/-- Invariant of the breadth-first queues of `hide_children`, `expand_all`
and the plain traversal: strictly ascending valid ids whose non-head members
were enqueued as children of nodes popped before the head. -/
def QInv (t : DTree) (q : List Nat) : Prop :=
  q.Pairwise (· < ·) ∧ (∀ x ∈ q, x < numNodes t) ∧
    ∀ x ∈ q.tail, 0 < x ∧ parentId t x < q.headD 0

/-- Enough fuel to drain a breadth-first queue whose pops strictly
increase. -/
def FuelOk (t : DTree) (fuel : Nat) (q : List Nat) : Prop :=
  ∀ h, q.head? = some h → numNodes t - h ≤ fuel

/-- Depth of node `i` below the root, computed by climbing parent links with
fuel (under `WFBasic` the parent id strictly decreases, so fuel `i + 1`
always suffices). -/
def depthAux (t : DTree) : Nat → Nat → Nat
  | 0, _ => 0
  | f + 1, i =>
    match (nodeAt t i).parent with
    | none => 0
    | some p => depthAux t f p + 1

/-- Depth of node `i` below the root. -/
def depth (t : DTree) (i : Nat) : Nat := depthAux t (i + 1) i

/-! ### The eager representation (`Elements.py`) -/

/-- The visibility flags of the eager representation: one flag per node and
one per non-root node's incoming edge (`node_data` / `edge_data`
`visibility` entries). -/
structure EState where
  nvis : List Bool
  evis : List Bool
deriving DecidableEq, Repr

/-- Visibility flag of node `i`. -/
def nvisAt (st : EState) (i : Nat) : Bool := st.nvis.getD i false

/-- The `ElementNode.visible` setter: sets the node flag and, when the node
has an incoming edge (every node but the root), the edge flag. -/
def setVisE (i : Nat) (b : Bool) (st : EState) : EState :=
  ⟨st.nvis.set i b, if i = 0 then st.evis else st.evis.set i b⟩

/-- `ElementNode.set_child_visible`'s inner `dfs(node, depth)` with
`gas = DISPLAY_DEPTH - depth`: at gas 0 the depth guard returns, otherwise
the node is shown and both children are visited with one less gas. -/
def showDfs (t : DTree) : Nat → Nat → EState → EState
  | 0, _, st => st
  | g + 1, n, st =>
    let st1 := setVisE n true st
    let st2 :=
      match (nodeAt t n).left with
      | some c => showDfs t g c st1
      | none => st1
    match (nodeAt t n).right with
    | some c => showDfs t g c st2
    | none => st2

/-- `ElementNode.set_child_visible`. -/
def set_child_visible (t : DTree) (n : Nat) (st : EState) : EState :=
  showDfs t DISPLAY_DEPTH n st

/-- `ElementNode.set_child_hidden`'s inner `dfs(node)`: every child that is
not already hidden is hidden and recursed into.  Fuel-indexed; under
`WFBasic` children have strictly larger ids, so fuel `numNodes t` always
suffices from any start node. -/
def hideStep (t : DTree) : Nat → Nat → EState → EState
  | 0, _, st => st
  | f + 1, n, st =>
    let st1 :=
      match (nodeAt t n).left with
      | some c => if nvisAt st c then hideStep t f c (setVisE c false st) else st
      | none => st
    match (nodeAt t n).right with
    | some c => if nvisAt st1 c then hideStep t f c (setVisE c false st1) else st1
    | none => st1

/-- `ElementNode.set_child_hidden`. -/
def set_child_hidden (t : DTree) (n : Nat) (st : EState) : EState :=
  hideStep t (numNodes t) n st

/-- `Elements.reset`: hide everything below the root, then re-show up to the
display depth. -/
def resetE (t : DTree) (st : EState) : EState :=
  set_child_visible t 0 (set_child_hidden t 0 st)

/-- A reference into the `Elements.elements` list: either a node's
`node_data` or the `edge_data` of the edge into node `i`. -/
inductive ERef where
  | node (i : Nat)
  | edge (i : Nat)
deriving DecidableEq, Repr

/-- The depth-first construction order of the `Elements.elements` list: each
node's `node_data` is appended on entry, and before each recursion into a
child that child's `edge_data` is appended. -/
def elemsDfs (t : DTree) : Nat → Nat → List ERef
  | 0, _ => []
  | f + 1, n =>
    ERef.node n :: (childrenIds t n).flatMap (fun c => ERef.edge c :: elemsDfs t f c)

/-- The `Elements.elements` list of one built eager view. -/
def elemsList (t : DTree) : List ERef := elemsDfs t (numNodes t) 0

/-- Writing one supplied bit into one element's `visibility` entry. -/
def applyBit (st : EState) (r : ERef) (b : Bool) : EState :=
  match r with
  | ERef.node i => ⟨st.nvis.set i b, st.evis⟩
  | ERef.edge i => ⟨st.nvis, st.evis.set i b⟩

/-- `Elements.set_visiblity(s)`: zip the elements list with the supplied
bits and write each bit verbatim. -/
def set_visiblity (t : DTree) (st : EState) (bits : List Bool) : EState :=
  (List.zip (elemsList t) bits).foldl (fun a p => applyBit a p.1 p.2) st

/-- The eager connectivity invariant: every visible non-root node's parent
node is also visible. -/
def ConnectedE (t : DTree) (st : EState) : Prop :=
  ∀ i, i < numNodes t → 0 < i → nvisAt st i = true →
    nvisAt st (parentId t i) = true

/-! ### The build-once holder error path (`NodeHolder`) -/

/-- The three fields of `NodeHolder` relevant to the build lifecycle: the
build-claimed flag (`initialize_scheduled`), the completion flag
(`initialized_flag`) and the built result (`self.nodes` et al., `none`
until assigned).  `R` abstracts the generator's result triple. -/
structure HolderState (R : Type) where
  schedFlag : Bool
  doneFlag : Bool
  built : Option R
deriving Repr

/-- `NodeHolder.get_and_set_initialize_scheduled`: atomically read the claim
flag and set it. -/
def getAndSetScheduled {R : Type} (st : HolderState R) : Bool × HolderState R :=
  (st.schedFlag, { st with schedFlag := true })

/-- `NodeHolder._initialize`, with the external generator call abstracted by
its outcome: on success the result fields are assigned; on an exception the
claim flag is stored back to 0 and the exception is re-raised. -/
def holderBuildInner {R E : Type} (st : HolderState R) (gen : Except E R) :
    HolderState R × Except E Unit :=
  match gen with
  | Except.ok r => ({ st with built := some r }, Except.ok ())
  | Except.error e => ({ st with schedFlag := false }, Except.error e)

/-- The body of `NodeHolder.initialize` under its lock: run `_initialize`,
then publish the completion flag only when it returned normally. -/
def holderBuild {R E : Type} (st : HolderState R) (gen : Except E R) :
    HolderState R × Except E Unit :=
  let r := holderBuildInner st gen
  match r.2 with
  | Except.ok _ => ({ r.1 with doneFlag := true }, Except.ok ())
  | Except.error e => (r.1, Except.error e)

/-! ### Concrete example trees -/

/-- The one-node tree (a single root leaf). -/
def T1 : DTree := ⟨[⟨none, none, none⟩]⟩

/-- A chain `0 → 1 → 2` of left children. -/
def chainT3 : DTree :=
  ⟨[⟨none, some 1, none⟩, ⟨some 0, some 2, none⟩, ⟨some 1, none, none⟩]⟩

/-- The fork: root 0 with two leaf children 1 and 2. -/
def forkT3 : DTree :=
  ⟨[⟨none, some 1, some 2⟩, ⟨some 0, none, none⟩, ⟨some 0, none, none⟩]⟩

/-- A chain `0 → 1` with a single left child. -/
def chainT2 : DTree := ⟨[⟨none, some 1, none⟩, ⟨some 0, none, none⟩]⟩

/-- The left-spine path tree on `n` nodes: node `i` has left child `i + 1`. -/
def pathTree (n : Nat) : DTree :=
  ⟨(List.range n).map (fun i =>
    ⟨if i = 0 then none else some (i - 1),
     if i + 1 < n then some (i + 1) else none,
     none⟩)⟩

instance (t : DTree) : Decidable (WFBasic t) := by
  delta WFBasic; infer_instance

instance (t : DTree) : Decidable (WF t) := by
  delta WF; infer_instance

instance (t : DTree) (s : List Int) : Decidable (ValidState t s) := by
  delta ValidState; infer_instance

instance (t : DTree) (st : EState) : Decidable (ConnectedE t st) := by
  delta ConnectedE; infer_instance

/-! ### Basic consequences of well-formedness -/

theorem mem_childrenIds {t : DTree} {i c : Nat} :
    c ∈ childrenIds t i ↔
      ((nodeAt t i).left = some c ∨ (nodeAt t i).right = some c) := by
  unfold childrenIds
  cases hL : (nodeAt t i).left <;> cases hR : (nodeAt t i).right <;>
    simp [Option.toList, eq_comm]

theorem child_facts {t : DTree} (hw : WFBasic t) {p c : Nat}
    (hp : p < numNodes t) (hc : c ∈ childrenIds t p) :
    c < numNodes t ∧ p < c ∧ (nodeAt t c).parent = some p := by
  rcases mem_childrenIds.mp hc with h | h
  · exact hw.2.2.2.1 p hp c h
  · exact hw.2.2.2.2.1 p hp c h

theorem parentId_of_child {t : DTree} (hw : WFBasic t) {p c : Nat}
    (hp : p < numNodes t) (hc : c ∈ childrenIds t p) : parentId t c = p := by
  have h := (child_facts hw hp hc).2.2
  simp [parentId, h]

theorem nonroot_facts {t : DTree} (hw : WFBasic t) {i : Nat}
    (hi : i < numNodes t) (h0 : 0 < i) :
    parentId t i < i ∧ i ∈ childrenIds t (parentId t i) := by
  obtain ⟨-, hlt, hmem⟩ := hw.2.2.1 i hi h0
  exact ⟨hlt, mem_childrenIds.mpr hmem⟩

theorem children_chain {t : DTree} (hw : WFBasic t) {p : Nat}
    (hp : p < numNodes t) : (childrenIds t p).Chain' (· < ·) := by
  unfold childrenIds
  cases hL : (nodeAt t p).left with
  | none => cases hR : (nodeAt t p).right <;> simp [Option.toList]
  | some a =>
    cases hR : (nodeAt t p).right with
    | none => simp [Option.toList]
    | some b =>
      simp only [Option.toList, List.cons_append, List.nil_append,
        List.chain'_cons, List.chain'_singleton, and_true]
      exact hw.2.2.2.2.2 p hp a hL b hR

theorem children_gt {t : DTree} (hw : WFBasic t) {p c : Nat}
    (hp : p < numNodes t) (hc : c ∈ childrenIds t p) : p < c :=
  (child_facts hw hp hc).2.1

theorem children_pos {t : DTree} (hw : WFBasic t) {p c : Nat}
    (hp : p < numNodes t) (hc : c ∈ childrenIds t p) : 0 < c :=
  Nat.lt_of_le_of_lt (Nat.zero_le p) (children_gt hw hp hc)

/-- Parent ids are monotone in the child id (the BFS-order invariant,
globalized from the consecutive-step form in `WF`). -/
theorem parent_mono {t : DTree} (hw : WF t) {i j : Nat}
    (h1 : 1 ≤ i) (hij : i ≤ j) (hj : j < numNodes t) :
    parentId t i ≤ parentId t j := by
  induction j with
  | zero => omega
  | succ k ih =>
    rcases Nat.lt_or_ge i (k + 1) with hlt | hge
    · have hk : parentId t i ≤ parentId t k := ih (by omega) (by omega)
      have hstep : parentId t k ≤ parentId t (k + 1) :=
        hw.2 k (by omega) (by omega) hj
      omega
    · have : i = k + 1 := by omega
      subst this; rfl

theorem lt_of_parent_lt {t : DTree} (hw : WF t) {x y : Nat}
    (hxn : x < numNodes t) (hy : 1 ≤ y)
    (h : parentId t x < parentId t y) : x < y := by
  by_contra hle
  have : y ≤ x := by omega
  have := parent_mono hw hy this hxn
  omega

/-! ### Depth -/

theorem depthAux_stable {t : DTree} (hw : WFBasic t) :
    ∀ i, i < numNodes t → ∀ f g, i < f → i < g →
      depthAux t f i = depthAux t g i := by
  intro i
  induction i using Nat.strong_induction_on with
  | _ i ih =>
    intro hi f g hf hg
    match f, g with
    | f + 1, g + 1 =>
      simp only [depthAux]
      cases hp : (nodeAt t i).parent with
      | none => rfl
      | some p =>
        have h0 : 0 < i := by
          rcases Nat.eq_zero_or_pos i with h | h
          · subst h; rw [hw.2.1] at hp; cases hp
          · exact h
        have hplt : p < i := by
          have := (hw.2.2.1 i hi h0).2.1
          simpa [parentId, hp] using this
        change depthAux t f p + 1 = depthAux t g p + 1
        rw [ih p hplt (by omega) f g (by omega) (by omega)]

theorem depth_eq_aux {t : DTree} (hw : WFBasic t) {i f : Nat}
    (hi : i < numNodes t) (hf : i < f) : depthAux t f i = depth t i :=
  depthAux_stable hw i hi f (i + 1) hf (Nat.lt_succ_self i)

theorem depth_root (t : DTree) (h : (nodeAt t 0).parent = none) :
    depth t 0 = 0 := by
  simp [depth, depthAux, h]

theorem depth_of_parent {t : DTree} (hw : WFBasic t) {i : Nat}
    (hi : i < numNodes t) (h0 : 0 < i) :
    depth t i = depth t (parentId t i) + 1 := by
  obtain ⟨hne, hplt, -⟩ := hw.2.2.1 i hi h0
  rcases hp : (nodeAt t i).parent with - | p
  · exact absurd hp hne
  · have hpid : parentId t i = p := by simp [parentId, hp]
    have : depthAux t (i + 1) i = depthAux t i p + 1 := by
      simp [depthAux, hp]
    rw [depth, this, hpid]
    have hplt' : p < i := hpid ▸ hplt
    rw [depth_eq_aux hw (by omega) hplt']

theorem depth_child {t : DTree} (hw : WFBasic t) {p c : Nat}
    (hp : p < numNodes t) (hc : c ∈ childrenIds t p) :
    depth t c = depth t p + 1 := by
  obtain ⟨hcn, hpc, -⟩ := child_facts hw hp hc
  rw [depth_of_parent hw hcn (Nat.lt_of_le_of_lt (Nat.zero_le p) hpc),
    parentId_of_child hw hp hc]

theorem depth_mono {t : DTree} (hw : WF t) :
    ∀ j, j < numNodes t → ∀ i, i ≤ j → depth t i ≤ depth t j := by
  intro j
  induction j using Nat.strong_induction_on with
  | _ j ih =>
    intro hj i hij
    rcases Nat.eq_zero_or_pos j with hj0 | hj0
    · subst hj0
      have : i = 0 := Nat.le_zero.mp hij
      subst this
      exact Nat.le_refl _
    rcases Nat.eq_or_lt_of_le hij with h | hlt
    · subst h; exact Nat.le_refl _
    rcases Nat.eq_zero_or_pos i with hi0 | hi0
    · subst hi0
      rw [depth_root t hw.1.2.1]
      exact Nat.zero_le _
    have hi : i < numNodes t := by omega
    have hpm : parentId t i ≤ parentId t j :=
      parent_mono hw hi0 hij hj
    have hpi := (nonroot_facts hw.1 hi hi0).1
    have hpj := (nonroot_facts hw.1 hj hj0).1
    have hd : depth t (parentId t i) ≤ depth t (parentId t j) :=
      ih (parentId t j) hpj (by omega) (parentId t i) hpm
    rw [depth_of_parent hw.1 hi hi0, depth_of_parent hw.1 hj hj0]
    omega

theorem lt_of_depth_lt {t : DTree} (hw : WF t) {x y : Nat}
    (hx : x < numNodes t)
    (h : depth t x < depth t y) : x < y := by
  by_contra hle
  have : y ≤ x := by omega
  have := depth_mono hw x hx y this
  omega

/-! ### Steps-down chains -/

theorem stepsDown_bound {t : DTree} (hw : WFBasic t) {n x k : Nat}
    (hn : n < numNodes t) (h : StepsDown t n x k) : x < numNodes t := by
  induction h with
  | refl => exact hn
  | step _ hc ih => exact (child_facts hw ih hc).1

theorem stepsDown_depth {t : DTree} (hw : WFBasic t) {n x k : Nat}
    (hn : n < numNodes t) (h : StepsDown t n x k) :
    depth t x = depth t n + k := by
  induction h with
  | refl => rfl
  | step hs hc ih =>
    have hpb := stepsDown_bound hw hn hs
    rw [depth_child hw hpb hc, ih]
    omega

theorem stepsDown_le {t : DTree} (hw : WFBasic t) {n x k : Nat}
    (hn : n < numNodes t) (h : StepsDown t n x k) :
    n ≤ x ∧ (0 < k → n < x) := by
  induction h with
  | refl => exact ⟨Nat.le_refl _, by omega⟩
  | step hs hc ih =>
    have hpb := stepsDown_bound hw hn hs
    have hgt := children_gt hw hpb hc
    obtain ⟨h1, -⟩ := ih
    exact ⟨by omega, fun _ => by omega⟩

theorem stepsDown_gt {t : DTree} (hw : WFBasic t) {n x k : Nat}
    (hn : n < numNodes t) (h : StepsDown t n x k) (hk : 0 < k) : n < x :=
  (stepsDown_le hw hn h).2 hk

/-! ### Sorted array toolkit -/

theorem chain'_lt_iff_pairwise {s : List Int} :
    s.Chain' (· < ·) ↔ s.Pairwise (· < ·) :=
  List.chain'_iff_pairwise

theorem searchsorted_nil (v : Int) : searchsorted [] v = 0 := rfl

theorem searchsorted_cons (h : Int) (rest : List Int) (v : Int) :
    searchsorted (h :: rest) v =
      if h < v then searchsorted rest v + 1 else 0 := by
  by_cases hc : h < v <;>
    simp [searchsorted, List.takeWhile_cons, hc, Nat.add_comm]

theorem node_id_visiblity_iff {s : List Int} (hs : s.Pairwise (· < ·))
    (v : Int) : node_id_visiblity s v = true ↔ v ∈ s := by
  induction s with
  | nil => simp [node_id_visiblity, searchsorted_nil]
  | cons h rest ih =>
    obtain ⟨hlt, hrest⟩ := List.pairwise_cons.mp hs
    by_cases hc : h < v
    · have hne : v ≠ h := by omega
      rw [node_id_visiblity, searchsorted_cons]
      simp only [hc, if_true, List.get?_cons_succ, List.mem_cons]
      rw [← node_id_visiblity, ih hrest]
      simp [hne]
    · rw [node_id_visiblity, searchsorted_cons]
      simp only [hc, if_false, List.get?_cons_zero, List.mem_cons]
      constructor
      · intro hb
        have : h = v := by simpa using hb
        exact Or.inl this.symm
      · rintro (rfl | hm)
        · simp
        · exact absurd (hlt v hm) hc

theorem searchsorted_of_get? {s : List Int} (hs : s.Pairwise (· < ·)) :
    ∀ k y, s.get? k = some y → searchsorted s y = k := by
  induction s with
  | nil => intro k y h; simp at h
  | cons h rest ih =>
    obtain ⟨hlt, hrest⟩ := List.pairwise_cons.mp hs
    intro k y hk
    cases k with
    | zero =>
      simp only [List.get?_cons_zero, Option.some.injEq] at hk
      subst hk
      rw [searchsorted_cons]
      simp
    | succ k' =>
      simp only [List.get?_cons_succ] at hk
      have hmem : y ∈ rest := List.get?_mem hk
      have : h < y := hlt y hmem
      rw [searchsorted_cons, if_pos this, ih hrest k' y hk]

theorem get?_searchsorted {s : List Int} (hs : s.Pairwise (· < ·)) {v : Int}
    (hv : v ∈ s) : s.get? (searchsorted s v) = some v := by
  obtain ⟨k, hk⟩ := List.get?_of_mem hv
  rw [searchsorted_of_get? hs k v hk]
  exact hk

theorem searchsorted_inj {s : List Int} (hs : s.Pairwise (· < ·)) {x y : Int}
    (hx : x ∈ s) (hy : y ∈ s)
    (h : searchsorted s x = searchsorted s y) : x = y := by
  have h1 := get?_searchsorted hs hx
  have h2 := get?_searchsorted hs hy
  rw [h, h2] at h1
  exact (Option.some.injEq _ _).mp h1.symm

theorem npDeleteAux_sublist (ds : List Nat) :
    ∀ i s, List.Sublist (npDeleteAux ds i s) s := by
  intro i s
  induction s generalizing i with
  | nil => simp [npDeleteAux]
  | cons x r ih =>
    rw [npDeleteAux]
    by_cases hi : i ∈ ds
    · simp only [hi, if_true]
      exact (ih (i + 1)).cons x
    · simp only [hi, if_false]
      exact (ih (i + 1)).cons₂ x

theorem npDelete_sublist (s : List Int) (ds : List Nat) :
    List.Sublist (npDelete s ds) s :=
  npDeleteAux_sublist ds 0 s

theorem mem_npDeleteAux (ds : List Nat) :
    ∀ s i y, y ∈ npDeleteAux ds i s ↔
      ∃ k, s.get? k = some y ∧ (i + k) ∉ ds := by
  intro s
  induction s with
  | nil => intro i y; simp [npDeleteAux]
  | cons x r ih =>
    intro i y
    have hsplit : ∀ P : Nat → Prop, (∃ k, (x :: r).get? k = some y ∧ P k) ↔
        ((x = y ∧ P 0) ∨ ∃ k, r.get? k = some y ∧ P (k + 1)) := by
      intro P
      constructor
      · rintro ⟨k, h1, h2⟩
        cases k with
        | zero => exact Or.inl ⟨by simpa using h1, h2⟩
        | succ k' => exact Or.inr ⟨k', by simpa using h1, h2⟩
      · rintro (⟨h1, h2⟩ | ⟨k, h1, h2⟩)
        · exact ⟨0, by simpa using h1, h2⟩
        · exact ⟨k + 1, by simpa using h1, h2⟩
    rw [npDeleteAux]
    by_cases hi : i ∈ ds
    · simp only [hi, if_true]
      rw [ih (i + 1) y, hsplit (fun k => (i + k) ∉ ds)]
      constructor
      · rintro ⟨k, h1, h2⟩
        refine Or.inr ⟨k, h1, ?_⟩
        have heq : i + (k + 1) = i + 1 + k := by omega
        rw [heq]; exact h2
      · rintro (⟨h1, h2⟩ | ⟨k, h1, h2⟩)
        · exact absurd hi (by simpa using h2)
        · refine ⟨k, h1, ?_⟩
          have heq : i + 1 + k = i + (k + 1) := by omega
          rw [heq]; exact h2
    · simp only [hi, if_false, List.mem_cons]
      rw [ih (i + 1) y, hsplit (fun k => (i + k) ∉ ds)]
      constructor
      · rintro (rfl | ⟨k, h1, h2⟩)
        · exact Or.inl ⟨rfl, by simpa using hi⟩
        · refine Or.inr ⟨k, h1, ?_⟩
          have heq : i + (k + 1) = i + 1 + k := by omega
          rw [heq]; exact h2
      · rintro (⟨h1, h2⟩ | ⟨k, h1, h2⟩)
        · exact Or.inl h1.symm
        · refine Or.inr ⟨k, h1, ?_⟩
          have heq : i + 1 + k = i + (k + 1) := by omega
          rw [heq]; exact h2

theorem mem_npDelete {s : List Int} (hs : s.Pairwise (· < ·))
    (ds : List Nat) (y : Int) :
    y ∈ npDelete s ds ↔ y ∈ s ∧ searchsorted s y ∉ ds := by
  rw [npDelete, mem_npDeleteAux]
  constructor
  · rintro ⟨k, h1, h2⟩
    have hm : y ∈ s := List.get?_mem h1
    have := searchsorted_of_get? hs k y h1
    exact ⟨hm, by simpa [this] using h2⟩
  · rintro ⟨hm, hp⟩
    exact ⟨searchsorted s y, get?_searchsorted hs hm, by simpa using hp⟩

theorem pairwise_lt_ext {α : Type} [LinearOrder α] :
    ∀ {a b : List α}, a.Pairwise (· < ·) → b.Pairwise (· < ·) →
      (∀ x, x ∈ a ↔ x ∈ b) → a = b := by
  intro a
  induction a with
  | nil =>
    intro b _ hb h
    cases b with
    | nil => rfl
    | cons y ys => exact absurd ((h y).mpr (List.mem_cons_self y ys)) (by simp)
  | cons x xs ih =>
    intro b ha hb h
    cases b with
    | nil => exact absurd ((h x).mp (List.mem_cons_self x xs)) (by simp)
    | cons y ys =>
      obtain ⟨hxlt, hxs⟩ := List.pairwise_cons.mp ha
      obtain ⟨hylt, hys⟩ := List.pairwise_cons.mp hb
      have hxy : x = y := by
        have hxb : x ∈ y :: ys := (h x).mp (List.mem_cons_self x xs)
        have hya : y ∈ x :: xs := (h y).mpr (List.mem_cons_self y ys)
        rcases List.mem_cons.mp hxb with h1 | h1
        · exact h1
        rcases List.mem_cons.mp hya with h2 | h2
        · exact h2.symm
        exact absurd (hxlt y h2) (not_lt.mpr (le_of_lt (hylt x h1)))
      subst hxy
      congr 1
      refine ih hxs hys ?_
      intro z
      constructor
      · intro hz
        have hzx : x < z := hxlt z hz
        have : z ∈ x :: ys := (h z).mp (List.mem_cons_of_mem x hz)
        rcases List.mem_cons.mp this with h1 | h1
        · exact absurd (h1 ▸ hzx) (lt_irrefl x)
        · exact h1
      · intro hz
        have hzx : x < z := hylt z hz
        have : z ∈ x :: xs := (h z).mpr (List.mem_cons_of_mem x hz)
        rcases List.mem_cons.mp this with h1 | h1
        · exact absurd (h1 ▸ hzx) (lt_irrefl x)
        · exact h1

/-! ### Merge with duplicate dropping -/

theorem mem_mergeKeepF : ∀ (f : Nat) (a b : List Int) (x : Int),
    x ∈ mergeKeepF f a b ↔ x ∈ a ∨ x ∈ b := by
  intro f
  induction f with
  | zero => intro a b x; simp [mergeKeepF]
  | succ f ih =>
    intro a b x
    cases a with
    | nil => simp [mergeKeepF]
    | cons xa ta =>
      cases b with
      | nil => simp [mergeKeepF]
      | cons yb tb =>
        simp only [mergeKeepF]
        by_cases hle : xa ≤ yb
        · simp only [hle, if_true, List.mem_cons]
          rw [ih ta (yb :: tb) x]
          simp only [List.mem_cons]
          tauto
        · simp only [hle, if_false, List.mem_cons]
          rw [ih (xa :: ta) tb x]
          simp only [List.mem_cons]
          tauto

theorem mem_mergeKeep (a b : List Int) (x : Int) :
    x ∈ mergeKeep a b ↔ x ∈ a ∨ x ∈ b :=
  mem_mergeKeepF _ a b x

theorem head_mergeKeepF : ∀ (f : Nat) (a b : List Int) (h : Int),
    (mergeKeepF f a b).head? = some h →
      a.head? = some h ∨ b.head? = some h := by
  intro f
  cases f with
  | zero =>
    intro a b h
    cases a with
    | nil => intro hh; exact Or.inr hh
    | cons xa ta =>
      intro hh
      simp only [mergeKeepF, List.cons_append, List.head?_cons] at hh
      exact Or.inl hh
  | succ f =>
    intro a b h
    cases a with
    | nil => intro hh; simp only [mergeKeepF] at hh; exact Or.inr hh
    | cons xa ta =>
      cases b with
      | nil => intro hh; simp only [mergeKeepF] at hh; exact Or.inl hh
      | cons yb tb =>
        simp only [mergeKeepF]
        by_cases hle : xa ≤ yb
        · simp only [hle, if_true, List.head?_cons]
          intro hh
          exact Or.inl hh
        · simp only [hle, if_false, List.head?_cons]
          intro hh
          exact Or.inr hh

theorem chain_le_mergeKeepF : ∀ (f : Nat) (a b : List Int),
    a.length + b.length ≤ f → a.Chain' (· ≤ ·) → b.Chain' (· ≤ ·) →
    (mergeKeepF f a b).Chain' (· ≤ ·) := by
  intro f
  induction f with
  | zero =>
    intro a b hf ha hb
    have h1 : a = [] := by
      cases a with
      | nil => rfl
      | cons x xs => simp at hf
    have h2 : b = [] := by
      cases b with
      | nil => rfl
      | cons y ys =>
        rw [h1] at hf
        simp at hf
    subst h1
    subst h2
    simp [mergeKeepF]
  | succ f ih =>
    intro a b hf ha hb
    cases a with
    | nil => simpa [mergeKeepF] using hb
    | cons xa ta =>
      cases b with
      | nil => simpa [mergeKeepF] using ha
      | cons yb tb =>
        obtain ⟨hhead, hta⟩ := List.chain'_cons'.mp ha
        obtain ⟨hbhead, htb⟩ := List.chain'_cons'.mp hb
        simp only [mergeKeepF]
        simp only [List.length_cons] at hf
        by_cases hle : xa ≤ yb
        · simp only [hle, if_true]
          rw [List.chain'_cons']
          refine ⟨?_, ih ta (yb :: tb) (by simp; omega) hta hb⟩
          intro u hu
          rcases head_mergeKeepF _ _ _ u hu with h | h
          · exact hhead u h
          · simp only [List.head?_cons, Option.some.injEq] at h
            omega
        · simp only [hle, if_false]
          rw [List.chain'_cons']
          refine ⟨?_, ih (xa :: ta) tb (by simp; omega) ha htb⟩
          intro u hu
          rcases head_mergeKeepF _ _ _ u hu with h | h
          · simp only [List.head?_cons, Option.some.injEq] at h
            omega
          · exact hbhead u h

theorem chain_le_mergeKeep (a b : List Int) (ha : a.Chain' (· ≤ ·))
    (hb : b.Chain' (· ≤ ·)) : (mergeKeep a b).Chain' (· ≤ ·) :=
  chain_le_mergeKeepF _ a b (Nat.le_refl _) ha hb

theorem mem_dedupSorted : ∀ l : List Int, ∀ x, x ∈ dedupSorted l ↔ x ∈ l := by
  intro l
  induction l with
  | nil => intro x; simp [dedupSorted]
  | cons a t ih =>
    cases t with
    | nil => intro x; simp [dedupSorted]
    | cons b r =>
      intro x
      simp only [dedupSorted]
      by_cases hab : a = b
      · subst hab
        simp only [if_true]
        rw [ih x]
        simp only [List.mem_cons]
        tauto
      · simp only [hab, if_false, List.mem_cons]
        rw [ih x]
        simp only [List.mem_cons]

theorem dedupSorted_cons_head : ∀ (t : List Int) (a : Int),
    ∃ r', dedupSorted (a :: t) = a :: r' := by
  intro t
  induction t with
  | nil => intro a; exact ⟨[], rfl⟩
  | cons b r ih =>
    intro a
    by_cases hab : a = b
    · subst hab
      simpa [dedupSorted] using ih a
    · exact ⟨dedupSorted (b :: r), by simp [dedupSorted, hab]⟩

theorem chain_lt_dedupSorted : ∀ l : List Int, l.Chain' (· ≤ ·) →
    (dedupSorted l).Chain' (· < ·) := by
  intro l
  induction l with
  | nil => intro _; simp [dedupSorted]
  | cons a t ih =>
    intro h
    cases t with
    | nil => simp [dedupSorted]
    | cons b r =>
      obtain ⟨hab, hbr⟩ := List.chain'_cons.mp h
      by_cases heq : a = b
      · subst heq
        simpa [dedupSorted] using ih hbr
      · have halt : a < b := lt_of_le_of_ne hab heq
        simp only [dedupSorted, heq, if_false]
        obtain ⟨r', hr'⟩ := dedupSorted_cons_head r b
        have hch := ih hbr
        rw [hr'] at hch ⊢
        exact List.chain'_cons.mpr ⟨halt, hch⟩

/-- The two facts needed about `snp.merge(·, ·, duplicates=DROP)` on sorted
inputs: the result is strictly ascending and contains exactly the union. -/
theorem snpMergeDrop_pairwise {a b : List Int} (ha : a.Pairwise (· < ·))
    (hb : b.Pairwise (· < ·)) : (snpMergeDrop a b).Pairwise (· < ·) := by
  have ha' : a.Chain' (· ≤ ·) :=
    (chain'_lt_iff_pairwise.mpr ha).imp (fun _ _ h => le_of_lt h)
  have hb' : b.Chain' (· ≤ ·) :=
    (chain'_lt_iff_pairwise.mpr hb).imp (fun _ _ h => le_of_lt h)
  exact chain'_lt_iff_pairwise.mp
    (chain_lt_dedupSorted _ (chain_le_mergeKeep a b ha' hb'))

theorem mem_snpMergeDrop (a b : List Int) (x : Int) :
    x ∈ snpMergeDrop a b ↔ x ∈ a ∨ x ∈ b := by
  rw [snpMergeDrop, mem_dedupSorted, mem_mergeKeep]

/-! ### Validation of supplied state -/

instance (t : DTree) (l : List Int) : Decidable (PrefixClosed t l) := by
  delta PrefixClosed; infer_instance

theorem validState_sorted {t : DTree} {s : List Int} (hv : ValidState t s) :
    s.Pairwise (· < ·) := hv.1

theorem validState_cons {t : DTree} {s : List Int} (hv : ValidState t s) :
    ∃ r, s = (0 : Int) :: r := by
  obtain ⟨hc, h0, hall⟩ := hv
  cases s with
  | nil => cases h0
  | cons h r =>
    obtain ⟨hlt, -⟩ := List.pairwise_cons.mp hc
    have hh0 : 0 ≤ h := (hall h (List.mem_cons_self _ _)).1
    rcases List.mem_cons.mp h0 with he | hm
    · subst he
      exact ⟨r, rfl⟩
    · have := hlt 0 hm
      omega

theorem validateLoop_good {t : DTree} (hw : WF t) :
    ∀ rest acc, (∀ x ∈ rest, 1 ≤ x) →
      validateLoop t rest acc = some (specWalk t rest acc) := by
  intro rest
  induction rest with
  | nil => intro acc _; rfl
  | cons x r ih =>
    intro acc hall
    have hx1 : 1 ≤ x := hall x (List.mem_cons_self _ _)
    have hrest : ∀ y ∈ r, 1 ≤ y := fun y hy => hall y (List.mem_cons_of_mem _ hy)
    rw [validateLoop, specWalk]
    by_cases hge : (numNodes t : Int) ≤ x
    · simp [hge]
    · simp only [hge, if_false]
      have hidx : pyIdx (numNodes t) x = some x.toNat := by
        unfold pyIdx
        rw [if_pos ⟨by omega, by omega⟩]
      rw [hidx]
      have hnatlen : x.toNat < numNodes t := by omega
      obtain ⟨hne, -, -⟩ := hw.1.2.2.1 x.toNat hnatlen (by omega)
      cases hp : (nodeAt t x.toNat).parent with
      | none => exact absurd hp hne
      | some p =>
        have hpid : parentId t x.toNat = p := by simp [parentId, hp]
        simp only [hp, hpid]
        by_cases hmem : (p : Int) ∈ acc
        · simp only [hmem, if_true]
          exact ih (acc ++ [x]) hrest
        · simp only [hmem, if_false]
          exact ih acc hrest

theorem specWalk_grows (t : DTree) :
    ∀ rest acc, ∃ l', specWalk t rest acc = acc ++ l' := by
  intro rest
  induction rest with
  | nil => intro acc; exact ⟨[], (List.append_nil acc).symm⟩
  | cons x r ih =>
    intro acc
    rw [specWalk]
    by_cases hge : (numNodes t : Int) ≤ x
    · simp only [hge, if_true]
      exact ⟨[], (List.append_nil acc).symm⟩
    · by_cases hmem : (parentId t x.toNat : Int) ∈ acc
      · simp only [hge, if_false, hmem, if_true]
        obtain ⟨l', hl'⟩ := ih (acc ++ [x])
        exact ⟨[x] ++ l', by rw [hl', List.append_assoc]⟩
      · simp only [hge, if_false, hmem, if_false]
        exact ih acc

theorem getD_append_lt :  ∀ (l l' : List Int) (k : Nat), k < l.length →
    (l ++ l').getD k 0 = l.getD k 0 := by
  intro l
  induction l with
  | nil => intro l' k h; simp at h
  | cons a tl ih =>
    intro l' k h
    cases k with
    | zero => rfl
    | succ k' =>
      simp only [List.cons_append, List.getD_cons_succ]
      exact ih l' k' (by simpa using h)

theorem getD_append_len : ∀ (l : List Int) (x : Int),
    (l ++ [x]).getD l.length 0 = x := by
  intro l x
  induction l with
  | nil => rfl
  | cons a tl ih =>
    simp only [List.cons_append, List.length_cons, List.getD_cons_succ]
    exact ih

theorem take_append_le : ∀ (l l' : List Int) (k : Nat), k ≤ l.length →
    (l ++ l').take k = l.take k := by
  intro l
  induction l with
  | nil =>
    intro l' k h
    have : k = 0 := by simpa using h
    subst this
    rfl
  | cons a tl ih =>
    intro l' k h
    cases k with
    | zero => rfl
    | succ k' =>
      simp only [List.cons_append, List.take_succ_cons]
      rw [ih l' k' (by simpa using h)]

theorem prefixClosed_snoc {t : DTree} {acc : List Int} {x : Int}
    (hpc : PrefixClosed t acc) (hx : (parentId t x.toNat : Int) ∈ acc) :
    PrefixClosed t (acc ++ [x]) := by
  intro k hk hx0
  rw [List.length_append, List.length_singleton] at hk
  rcases Nat.lt_or_ge k acc.length with hlt | hge
  · rw [getD_append_lt _ _ _ hlt] at hx0 ⊢
    rw [take_append_le _ _ _ (Nat.le_of_lt hlt)]
    exact hpc k hlt hx0
  · have hk' : k = acc.length := by omega
    subst hk'
    rw [getD_append_len]
    rw [List.take_left]
    exact hx

theorem specWalk_prefixClosed {t : DTree} :
    ∀ rest acc, PrefixClosed t acc → PrefixClosed t (specWalk t rest acc) := by
  intro rest
  induction rest with
  | nil => intro acc h; exact h
  | cons x r ih =>
    intro acc h
    rw [specWalk]
    by_cases hge : (numNodes t : Int) ≤ x
    · simpa [hge] using h
    · by_cases hmem : (parentId t x.toNat : Int) ∈ acc
      · simp only [hge, if_false, hmem, if_true]
        exact ih _ (prefixClosed_snoc h hmem)
      · simp only [hge, if_false, hmem, if_false]
        exact ih _ h

/-- C2 (counterexample): on the one-node tree and the supplied array
`[0, 0]`, `_validate_visiblity_state` does not return any array at all —
walking the second element 0 evaluates `nodes[0].parent.id` on the root,
whose parent is `None`, raising an `AttributeError` — so it does not return
the array the claim describes for this input. -/
theorem C2_counterexample :
    WF T1 ∧ validate_visiblity_state T1 [0, 0] = none := by
  refine ⟨by decide, by decide⟩

/-- C2 (amended): for every supplied id array in which every entry after the
first is at least 1 (so that the walk never looks up the parent of the root
or of a negatively indexed node), `_validate_visiblity_state` returns exactly
the array described by the spec: starting from the root id 0, walking the
input from its second element onward, truncating at the first id at or
beyond the current tree's node count, and keeping each remaining id exactly
when its parent id was already accepted. -/
theorem C2_validate_eq_spec_walk {t : DTree} {input : List Int} (hw : WF t)
    (hall : ∀ x ∈ input.drop 1, 1 ≤ x) :
    validate_visiblity_state t input = some (specValidate t input) := by
  unfold validate_visiblity_state specValidate
  exact validateLoop_good hw (input.drop 1) [0] hall

/-- C2 (witness): the amended theorem applied to the chain tree and the
array `[0, 2, 1, 5]` (2 is dropped in place, 1 is kept, 5 truncates). -/
theorem C2_validate_eq_spec_walk_witness :
    validate_visiblity_state chainT3 [0, 2, 1, 5] =
      some (specValidate chainT3 [0, 2, 1, 5]) :=
  C2_validate_eq_spec_walk (by decide) (by decide)

/-- C5 (counterexample): the decoded array `[0, -2]` on the one-node tree is
a well-formed id array, but `_validate_visiblity_state` raises an
`IndexError` (`nodes[-2]` with only one node) instead of reducing the state,
contradicting "never raises an error". -/
theorem C5_counterexample :
    WF T1 ∧ validate_visiblity_state T1 [0, -2] = none := by
  refine ⟨by decide, by decide⟩

/-- C5 (amended): on every decoded id array whose entries after the first
are all at least 1 — in particular with duplicate non-root ids and ids in
arbitrary order — `_validate_visiblity_state` never raises and returns
deterministically an array that starts with the root id 0 and in which every
non-root entry's parent id occurs at an earlier position.  (Entries that are
0 or negative make the code raise, see the counterexample; the result is
also not necessarily sorted or duplicate-free when the input is not.) -/
theorem C5_validate_total_on_positive_tails {t : DTree} {input : List Int}
    (hw : WF t) (hall : ∀ x ∈ input.drop 1, 1 ≤ x) :
    ∃ ys, validate_visiblity_state t input = some ys ∧
      ys.head? = some 0 ∧ PrefixClosed t ys := by
  refine ⟨specValidate t input, ?_, ?_, ?_⟩
  · unfold validate_visiblity_state specValidate
    exact validateLoop_good hw (input.drop 1) [0] hall
  · obtain ⟨l', hl'⟩ := specWalk_grows t (input.drop 1) [0]
    unfold specValidate
    rw [hl']
    rfl
  · apply specWalk_prefixClosed
    intro k hk h0
    have : k = 0 := by simpa using hk
    subst this
    exact absurd rfl h0

/-- C5 (witness): the amended theorem applied to the fork tree and the
array `[0, 2, 2, 1]` (duplicates and out-of-order ids). -/
theorem C5_validate_total_on_positive_tails_witness :
    ∃ ys, validate_visiblity_state forkT3 [0, 2, 2, 1] = some ys ∧
      ys.head? = some 0 ∧ PrefixClosed forkT3 ys :=
  C5_validate_total_on_positive_tails (by decide) (by decide)

/-! ### The build-once error path -/

/-- C8: if generation raises during a build (`_initialize`), the claim flag
(`initialize_scheduled`) is stored back to 0 so a future caller can claim
and retry the same key, the completion flag is never set for the failed
build and no partial result is stored, and the error is rethrown to the
caller that ran the build. -/
theorem C8_failed_build_resets_claim {R E : Type} (st : HolderState R) (e : E)
    (hfresh : st.doneFlag = false) (hempty : st.built = none) :
    (holderBuild st (Except.error e)).2 = Except.error e ∧
      (holderBuild st (Except.error e)).1.schedFlag = false ∧
      (holderBuild st (Except.error e)).1.doneFlag = false ∧
      (holderBuild st (Except.error e)).1.built = none ∧
      (getAndSetScheduled (holderBuild st (Except.error e)).1).1 = false := by
  simp [holderBuild, holderBuildInner, getAndSetScheduled, hfresh, hempty]

/-- C8 (witness): the theorem applied to a claimed fresh handle. -/
theorem C8_failed_build_resets_claim_witness :
    (holderBuild (⟨true, false, none⟩ : HolderState Nat)
        (Except.error ())).2 = Except.error () ∧
      (holderBuild (⟨true, false, none⟩ : HolderState Nat)
        (Except.error ())).1.schedFlag = false ∧
      (holderBuild (⟨true, false, none⟩ : HolderState Nat)
        (Except.error ())).1.doneFlag = false ∧
      (holderBuild (⟨true, false, none⟩ : HolderState Nat)
        (Except.error ())).1.built = none ∧
      (getAndSetScheduled (holderBuild (⟨true, false, none⟩ : HolderState Nat)
        (Except.error ())).1).1 = false :=
  C8_failed_build_resets_claim ⟨true, false, none⟩ () rfl rfl

/-! ### Breadth-first levels of expand_children -/

theorem mem_nextLevel {t : DTree} {l : List Nat} {x : Nat} :
    x ∈ nextLevel t l ↔ ∃ p ∈ l, x ∈ childrenIds t p := by
  simp [nextLevel, List.mem_flatMap]

theorem stepsDown_trans {t : DTree} {a b c j k : Nat} :
    StepsDown t a b j → StepsDown t b c k → StepsDown t a c (j + k) := by
  intro h1 h2
  induction h2 with
  | refl => exact h1
  | step hs hc ih => exact StepsDown.step ih hc

theorem stepsDown_succ_iff {t : DTree} {p x k : Nat} :
    StepsDown t p x (k + 1) ↔ ∃ c ∈ childrenIds t p, StepsDown t c x k := by
  constructor
  · intro h
    induction k generalizing x with
    | zero =>
      cases h with
      | step hs hc =>
        cases hs with
        | refl => exact ⟨x, hc, StepsDown.refl x⟩
    | succ k' ih =>
      cases h with
      | step hs hc =>
        obtain ⟨c, hcp, hcs⟩ := ih hs
        exact ⟨c, hcp, StepsDown.step hcs hc⟩
  · rintro ⟨c, hcp, hs⟩
    have h1 : StepsDown t p c 1 := StepsDown.step (StepsDown.refl p) hcp
    have := stepsDown_trans h1 hs
    simpa [Nat.add_comm] using this

theorem nextLevel_pairwise {t : DTree} (hw : WF t) :
    ∀ l : List Nat, l.Pairwise (· < ·) → (∀ p ∈ l, p < numNodes t) →
      (nextLevel t l).Pairwise (· < ·) := by
  intro l
  induction l with
  | nil => intro _ _; simp [nextLevel]
  | cons p rest ih =>
    intro hpw hb
    obtain ⟨hplt, hrest⟩ := List.pairwise_cons.mp hpw
    have hp : p < numNodes t := hb p (List.mem_cons_self _ _)
    have hbr : ∀ q ∈ rest, q < numNodes t :=
      fun q hq => hb q (List.mem_cons_of_mem _ hq)
    have hnl : nextLevel t (p :: rest) = childrenIds t p ++ nextLevel t rest := by
      simp [nextLevel]
    rw [hnl, List.pairwise_append]
    refine ⟨List.chain'_iff_pairwise.mp (children_chain hw.1 hp),
      ih hrest hbr, ?_⟩
    intro a ha b hbm
    obtain ⟨q, hq, hbq⟩ := mem_nextLevel.mp hbm
    have hqlen := hbr q hq
    apply lt_of_parent_lt hw (child_facts hw.1 hp ha).1
      (children_pos hw.1 hqlen hbq)
    rw [parentId_of_child hw.1 hp ha, parentId_of_child hw.1 hqlen hbq]
    exact hplt q hq

theorem nextLevel_mem_facts {t : DTree} (hw : WF t) {l : List Nat} {D : Nat}
    (hb : ∀ p ∈ l, p < numNodes t) (hd : ∀ p ∈ l, depth t p = D) :
    ∀ x ∈ nextLevel t l, x < numNodes t ∧ 0 < x ∧ depth t x = D + 1 := by
  intro x hx
  obtain ⟨p, hp, hxp⟩ := mem_nextLevel.mp hx
  have hplen := hb p hp
  refine ⟨(child_facts hw.1 hplen hxp).1, children_pos hw.1 hplen hxp, ?_⟩
  rw [depth_child hw.1 hplen hxp, hd p hp]

theorem mem_expandLevels {t : DTree} :
    ∀ (d : Nat) (l : List Nat) (x : Nat), x ∈ expandLevels t d l ↔
      ∃ k, 1 ≤ k ∧ k ≤ d ∧ ∃ p ∈ l, StepsDown t p x k := by
  intro d
  induction d with
  | zero =>
    intro l x
    simp only [expandLevels, List.not_mem_nil, false_iff]
    rintro ⟨k, h1, h2, -⟩
    omega
  | succ d' ih =>
    intro l x
    simp only [expandLevels, List.mem_append]
    rw [mem_nextLevel, ih (nextLevel t l) x]
    constructor
    · rintro (⟨p, hp, hx⟩ | ⟨k, h1, h2, p', hp', hs⟩)
      · exact ⟨1, Nat.le_refl 1, by omega, p, hp,
          StepsDown.step (StepsDown.refl p) hx⟩
      · obtain ⟨q, hq, hqp'⟩ := mem_nextLevel.mp hp'
        refine ⟨k + 1, by omega, by omega, q, hq, ?_⟩
        have := stepsDown_trans (StepsDown.step (StepsDown.refl q) hqp') hs
        simpa [Nat.add_comm] using this
    · rintro ⟨k, h1, h2, p, hp, hs⟩
      cases k with
      | zero => omega
      | succ k' =>
        obtain ⟨c, hcp, hcs⟩ := stepsDown_succ_iff.mp hs
        cases k' with
        | zero =>
          cases hcs with
          | refl => exact Or.inl ⟨p, hp, hcp⟩
        | succ k'' =>
          exact Or.inr ⟨k'' + 1, by omega, by omega, c,
            mem_nextLevel.mpr ⟨p, hp, hcp⟩, hcs⟩

theorem expandLevels_pairwise {t : DTree} (hw : WF t) :
    ∀ (d : Nat) (l : List Nat) (D : Nat), l.Pairwise (· < ·) →
      (∀ p ∈ l, p < numNodes t) → (∀ p ∈ l, depth t p = D) →
      (expandLevels t d l).Pairwise (· < ·) := by
  intro d
  induction d with
  | zero => intro l D _ _ _; simp [expandLevels]
  | succ d' ih =>
    intro l D hpw hb hd
    simp only [expandLevels]
    rw [List.pairwise_append]
    refine ⟨nextLevel_pairwise hw l hpw hb,
      ih (nextLevel t l) (D + 1) (nextLevel_pairwise hw l hpw hb)
        (fun x hx => (nextLevel_mem_facts hw hb hd x hx).1)
        (fun x hx => (nextLevel_mem_facts hw hb hd x hx).2.2), ?_⟩
    intro a ha b hbm
    have hda := nextLevel_mem_facts hw hb hd a ha
    obtain ⟨k, hk1, hk2, p', hp', hs⟩ := (mem_expandLevels d' _ b).mp hbm
    have hdp' := nextLevel_mem_facts hw hb hd p' hp'
    have hdb : depth t b = D + 1 + k := by
      rw [stepsDown_depth hw.1 hdp'.1 hs, hdp'.2.2]
    apply lt_of_depth_lt hw hda.1
    rw [hda.2.2, hdb]
    omega

theorem expandLevels_start_facts {t : DTree} (hw : WF t) {d n : Nat}
    (hn : n < numNodes t) :
    ∀ x ∈ expandLevels t d [n], x < numNodes t ∧ n < x := by
  intro x hx
  obtain ⟨k, hk1, -, p, hp, hs⟩ := (mem_expandLevels d [n] x).mp hx
  have hpn : p = n := by simpa using hp
  subst hpn
  exact ⟨stepsDown_bound hw.1 hn hs, stepsDown_gt hw.1 hn hs (by omega)⟩

theorem mem_expand_children {t : DTree} {s : List Int} {n : Nat} {x : Int} :
    x ∈ expand_children t s n ↔
      x ∈ s ∨ x ∈ (expandLevels t DISPLAY_DEPTH [n]).map Int.ofNat := by
  unfold expand_children
  exact mem_snpMergeDrop _ _ x

theorem expand_update_pairwise {t : DTree} (hw : WF t) {n : Nat}
    (hn : n < numNodes t) :
    ((expandLevels t DISPLAY_DEPTH [n]).map Int.ofNat).Pairwise (· < ·) := by
  refine List.Pairwise.map _ (fun a b h => ?_)
    (expandLevels_pairwise hw DISPLAY_DEPTH [n] (depth t n) (by simp)
      (by intro p hp; simp at hp; subst hp; exact hn)
      (by intro p hp; simp at hp; subst hp; rfl))
  exact Int.ofNat_lt.mpr h

theorem expand_children_valid {t : DTree} {s : List Int} {n : Nat}
    (hw : WF t) (hv : ValidState t s) (hn : n < numNodes t)
    (hvis : (Int.ofNat n) ∈ s) : ValidState t (expand_children t s n) := by
  have hps := validState_sorted hv
  refine ⟨?_, ?_, ?_⟩
  · unfold expand_children
    exact snpMergeDrop_pairwise hps (expand_update_pairwise hw hn)
  · exact mem_expand_children.mpr (Or.inl hv.2.1)
  · intro x hx
    rcases mem_expand_children.mp hx with hxs | hxu
    · obtain ⟨h0, hlen, hpar⟩ := hv.2.2 x hxs
      exact ⟨h0, hlen, fun hz =>
        mem_expand_children.mpr (Or.inl (hpar hz))⟩
    · obtain ⟨m, hm, rfl⟩ := List.mem_map.mp hxu
      obtain ⟨hmlen, -⟩ := expandLevels_start_facts hw hn m hm
      refine ⟨Int.ofNat_nonneg m,
        by rw [Int.ofNat_eq_natCast]; exact_mod_cast hmlen, ?_⟩
      intro _
      obtain ⟨k, hk1, hkd, p, hp, hs⟩ :=
        (mem_expandLevels DISPLAY_DEPTH [n] m).mp hm
      have hpn : p = n := by simpa using hp
      subst hpn
      cases hs with
      | refl => omega
      | step hs2 hc =>
        rename_i q k'
        have hqlen : q < numNodes t := stepsDown_bound hw.1 hn hs2
        have hpid : parentId t (Int.ofNat m).toNat = q := by
          show parentId t m = q
          exact parentId_of_child hw.1 hqlen hc
        rw [hpid]
        cases k' with
        | zero =>
          cases hs2 with
          | refl => exact mem_expand_children.mpr (Or.inl hvis)
        | succ k'' =>
          refine mem_expand_children.mpr (Or.inr ?_)
          refine List.mem_map.mpr ⟨q, ?_, rfl⟩
          exact (mem_expandLevels DISPLAY_DEPTH [p] q).mpr
            ⟨k'' + 1, by omega, by omega, p, by simp, hs2⟩

/-- C10: a sparse visibility set constructed without a visibility token
(`Nodes.__init__` with `visiblity_state=None`) starts in the default view:
its array contains exactly the root id 0 together with every descendant of
the root at most `DISPLAY_DEPTH` child steps below it, and nothing else. -/
theorem C10_default_view {t : DTree} (_hw : WF t) :
    ∀ x : Int, x ∈ initState t ↔
      x = 0 ∨ (0 ≤ x ∧ ∃ k, 1 ≤ k ∧ k ≤ DISPLAY_DEPTH ∧
        StepsDown t 0 x.toNat k) := by
  intro x
  unfold initState
  rw [mem_expand_children]
  constructor
  · rintro (hx | hx)
    · simp only [List.mem_singleton] at hx
      exact Or.inl hx
    · obtain ⟨m, hm, rfl⟩ := List.mem_map.mp hx
      obtain ⟨k, h1, h2, p, hp, hs⟩ :=
        (mem_expandLevels DISPLAY_DEPTH [0] m).mp hm
      have hp0 : p = 0 := by simpa using hp
      subst hp0
      exact Or.inr ⟨Int.ofNat_nonneg m, k, h1, h2, hs⟩
  · rintro (rfl | ⟨h0, k, h1, h2, hs⟩)
    · exact Or.inl (by simp)
    · refine Or.inr (List.mem_map.mpr ⟨x.toNat, ?_, ?_⟩)
      · exact (mem_expandLevels DISPLAY_DEPTH [0] x.toNat).mpr
          ⟨k, h1, h2, 0, by simp, hs⟩
      · rw [Int.ofNat_eq_natCast]
        exact Int.toNat_of_nonneg h0

/-- C10 (witness): the theorem applied to the chain tree. -/
theorem C10_default_view_witness :
    (1 : Int) ∈ initState chainT3 ↔
      (1 : Int) = 0 ∨ (0 ≤ (1 : Int) ∧ ∃ k, 1 ≤ k ∧ k ≤ DISPLAY_DEPTH ∧
        StepsDown chainT3 0 (1 : Int).toNat k) :=
  C10_default_view (by decide) 1

/-! ### Breadth-first queue invariants -/

theorem mem_children_parent_lt {t : DTree} {m c : Nat}
    (h : c ∈ childrenIds t m) : m < numNodes t := by
  by_contra hge
  have hd : nodeAt t m = ⟨none, none, none⟩ := by
    unfold nodeAt
    unfold numNodes at hge
    exact List.getD_eq_default _ _ (by omega)
  rw [mem_childrenIds, hd] at h
  simp at h

theorem qinv_step {t : DTree} (hw : WF t) {n : Nat} {q cs : List Nat}
    (hinv : QInv t (n :: q)) (hcs : cs.Sublist (childrenIds t n)) :
    QInv t (q ++ cs) ∧ (∀ x ∈ q ++ cs, n < x) := by
  obtain ⟨hpw, hb, htl⟩ := hinv
  obtain ⟨hnlt, hqpw⟩ := List.pairwise_cons.mp hpw
  have hn : n < numNodes t := hb n (List.mem_cons_self _ _)
  have hcmem : ∀ c ∈ cs, c ∈ childrenIds t n := fun c hc => hcs.mem hc
  have hcf : ∀ c ∈ cs, parentId t c = n ∧ n < c ∧ c < numNodes t ∧ 0 < c := by
    intro c hc
    have h1 := parentId_of_child hw.1 hn (hcmem c hc)
    have h2 := children_gt hw.1 hn (hcmem c hc)
    exact ⟨h1, h2, (child_facts hw.1 hn (hcmem c hc)).1,
      children_pos hw.1 hn (hcmem c hc)⟩
  have hqf : ∀ x ∈ q, 0 < x ∧ parentId t x < n := by
    intro x hx
    exact htl x (by simpa using hx)
  have hgt : ∀ x ∈ q ++ cs, n < x := by
    intro x hx
    rcases List.mem_append.mp hx with hx | hx
    · exact hnlt x hx
    · exact (hcf x hx).2.1
  refine ⟨⟨?_, ?_, ?_⟩, hgt⟩
  · rw [List.pairwise_append]
    refine ⟨hqpw,
      (List.chain'_iff_pairwise.mp (children_chain hw.1 hn)).sublist hcs, ?_⟩
    · intro a ha c hc
      have h1 := (hqf a ha).2
      have h2 := (hcf c hc).1
      have h3 := (hcf c hc).2.2.2
      apply lt_of_parent_lt hw (hb a (List.mem_cons_of_mem _ ha))
        (by omega)
      omega
  · intro x hx
    rcases List.mem_append.mp hx with hx | hx
    · exact hb x (List.mem_cons_of_mem _ hx)
    · exact (hcf x hx).2.2.1
  · intro x hx
    cases q with
    | nil =>
      simp only [List.nil_append] at hx ⊢
      cases cs with
      | nil => simp at hx
      | cons c0 cr =>
        have hx' : x ∈ cr := by simpa using hx
        refine ⟨(hcf x (List.mem_cons_of_mem _ hx')).2.2.2, ?_⟩
        have h1 := (hcf x (List.mem_cons_of_mem _ hx')).1
        have h2 := (hcf c0 (List.mem_cons_self _ _)).2.1
        simpa [h1] using h2
    | cons b q' =>
      have hx' : x ∈ q' ++ cs := by simpa using hx
      have hbq : n < b := hnlt b (List.mem_cons_self _ _)
      have hhead : ((b :: q') ++ cs).headD 0 = b := rfl
      rw [hhead]
      rcases List.mem_append.mp hx' with hx2 | hx2
      · have := hqf x (List.mem_cons_of_mem _ hx2)
        exact ⟨this.1, by omega⟩
      · have := hcf x hx2
        exact ⟨this.2.2.2, by omega⟩

theorem vreach_trans {t : DTree} {vis : Nat → Bool} {a b c : Nat} :
    VReach t vis a b → VReach t vis b c → VReach t vis a c := by
  intro h1 h2
  induction h2 with
  | child hc hv => exact VReach.step h1 hc hv
  | step hs hc hv ih => exact VReach.step ih hc hv

theorem vreach_first {t : DTree} {vis : Nat → Bool} {n x : Nat}
    (h : VReach t vis n x) :
    (x ∈ childrenIds t n ∧ vis x = true) ∨
      ∃ c, c ∈ childrenIds t n ∧ vis c = true ∧ VReach t vis c x := by
  induction h with
  | child hc hv => exact Or.inl ⟨hc, hv⟩
  | step hs hc hv ih =>
    rcases ih with ⟨hc0, hv0⟩ | ⟨c0, hc0, hv0, hr⟩
    · exact Or.inr ⟨_, hc0, hv0, VReach.child hc hv⟩
    · exact Or.inr ⟨c0, hc0, hv0, VReach.step hr hc hv⟩

theorem vreach_pos {t : DTree} (hw : WFBasic t) {vis : Nat → Bool} {n x : Nat}
    (h : VReach t vis n x) : 0 < x := by
  cases h with
  | child hc hv => exact children_pos hw (mem_children_parent_lt hc) hc
  | step hs hc hv => exact children_pos hw (mem_children_parent_lt hc) hc

theorem vreach_gt {t : DTree} (hw : WFBasic t) {vis : Nat → Bool} {n x : Nat}
    (h : VReach t vis n x) : n < x := by
  induction h with
  | child hc hv => exact children_gt hw (mem_children_parent_lt hc) hc
  | step hs hc hv ih =>
    have := children_gt hw (mem_children_parent_lt hc) hc
    omega

/-! ### Characterization of the hide loop -/

theorem hideLoop_ids {t : DTree} (hw : WF t) {s : List Int}
    (_hs : s.Pairwise (· < ·)) :
    ∀ fuel q, QInv t q → FuelOk t fuel q →
      ∀ i : Nat, i ∈ hideLoop t s fuel q ↔
        ∃ x : Nat, (∃ p ∈ q, VReach t (visB s) p x) ∧
          i = searchsorted s (Int.ofNat x) := by
  intro fuel
  induction fuel with
  | zero =>
    intro q hinv hfo i
    cases q with
    | nil => simp [hideLoop]
    | cons n q' =>
      have h1 : numNodes t - n ≤ 0 := hfo n rfl
      have h2 : n < numNodes t := hinv.2.1 n (List.mem_cons_self _ _)
      omega
  | succ f ih =>
    intro q hinv hfo i
    cases q with
    | nil => simp [hideLoop]
    | cons n q' =>
      have hn : n < numNodes t := hinv.2.1 n (List.mem_cons_self _ _)
      rw [hideLoop]
      simp only [List.mem_append, List.mem_map]
      have hsub : ((childrenIds t n).filter
          (fun c => node_id_visiblity s (Int.ofNat c))).Sublist
          (childrenIds t n) := List.filter_sublist _
      have hstep := qinv_step hw hinv hsub
      have hfo' : FuelOk t f (q' ++ (childrenIds t n).filter
          (fun c => node_id_visiblity s (Int.ofNat c))) := by
        intro h hh
        have hmem : h ∈ q' ++ (childrenIds t n).filter
            (fun c => node_id_visiblity s (Int.ofNat c)) :=
          List.mem_of_mem_head? hh
        have := hstep.2 h hmem
        have := hfo n rfl
        omega
      rw [ih _ hstep.1 hfo']
      constructor
      · rintro (⟨c, hc, hi⟩ | ⟨x, ⟨p, hp, hr⟩, hi⟩)
        · obtain ⟨hcm, hcv⟩ := List.mem_filter.mp hc
          exact ⟨c, ⟨n, List.mem_cons_self _ _,
            VReach.child hcm hcv⟩, hi.symm⟩
        · rcases List.mem_append.mp hp with hp2 | hp2
          · exact ⟨x, ⟨p, List.mem_cons_of_mem _ hp2, hr⟩, hi⟩
          · obtain ⟨hpm, hpv⟩ := List.mem_filter.mp hp2
            exact ⟨x, ⟨n, List.mem_cons_self _ _,
              vreach_trans (VReach.child hpm hpv) hr⟩, hi⟩
      · rintro ⟨x, ⟨p, hp, hr⟩, hi⟩
        rcases List.mem_cons.mp hp with rfl | hp2
        · rcases vreach_first hr with ⟨hcm, hcv⟩ | ⟨c, hcm, hcv, hr2⟩
          · exact Or.inl ⟨x, List.mem_filter.mpr ⟨hcm, hcv⟩, hi.symm⟩
          · refine Or.inr ⟨x, ⟨c, ?_, hr2⟩, hi⟩
            exact List.mem_append.mpr
              (Or.inr (List.mem_filter.mpr ⟨hcm, hcv⟩))
        · exact Or.inr ⟨x, ⟨p, List.mem_append.mpr (Or.inl hp2), hr⟩, hi⟩

theorem mem_hide_children {t : DTree} (hw : WF t) {s : List Int} {n : Nat}
    (hs : s.Pairwise (· < ·)) (hsb : ∀ x ∈ s, 0 ≤ x) (hn : n < numNodes t) :
    ∀ y : Int, y ∈ hide_children t s n ↔
      y ∈ s ∧ ¬ VReach t (visB s) n y.toNat := by
  intro y
  unfold hide_children
  rw [mem_npDelete hs]
  have hq : QInv t [n] := by
    refine ⟨by simp, by simpa using hn, by simp⟩
  have hf : FuelOk t (numNodes t + 1) [n] := by
    intro h hh
    simp only [List.head?_cons, Option.some.injEq] at hh
    omega
  constructor
  · rintro ⟨hy, hnd⟩
    refine ⟨hy, fun hr => hnd ?_⟩
    rw [hideLoop_ids hw hs _ _ hq hf]
    refine ⟨y.toNat, ⟨n, by simp, hr⟩, ?_⟩
    rw [Int.ofNat_eq_natCast, Int.toNat_of_nonneg (hsb y hy)]
  · rintro ⟨hy, hnr⟩
    refine ⟨hy, fun hd => ?_⟩
    rw [hideLoop_ids hw hs _ _ hq hf] at hd
    obtain ⟨x, ⟨p, hp, hr⟩, hi⟩ := hd
    have hp' : p = n := by simpa using hp
    subst hp'
    have hxv : visB s x = true := by
      cases hr with
      | child hc hv => exact hv
      | step hs2 hc hv => exact hv
    have hxs : (Int.ofNat x) ∈ s := by
      rw [visB] at hxv
      exact (node_id_visiblity_iff hs _).mp hxv
    have hxy : (Int.ofNat x) = y :=
      searchsorted_inj hs hxs hy hi.symm
    rw [Int.ofNat_eq_natCast] at hxy
    have : x = y.toNat := by omega
    subst this
    exact hnr hr

theorem hide_children_valid {t : DTree} {s : List Int} {n : Nat}
    (hw : WF t) (hv : ValidState t s) (hn : n < numNodes t) :
    ValidState t (hide_children t s n) := by
  have hps := validState_sorted hv
  have hsb : ∀ x ∈ s, 0 ≤ x := fun x hx => (hv.2.2 x hx).1
  have hmem := mem_hide_children hw hps hsb hn
  refine ⟨?_, ?_, ?_⟩
  · exact hps.sublist (npDelete_sublist _ _)
  · rw [hmem 0]
    refine ⟨hv.2.1, fun hr => ?_⟩
    have := vreach_pos hw.1 hr
    simp at this
  · intro x hx
    rw [hmem x] at hx
    obtain ⟨hxs, hnr⟩ := hx
    obtain ⟨h0, hlen, hpar⟩ := hv.2.2 x hxs
    refine ⟨h0, hlen, fun hz => ?_⟩
    rw [hmem _]
    refine ⟨hpar hz, fun hr => hnr ?_⟩
    have hrp : VReach t (visB s) n (parentId t x.toNat) := by
      simpa using hr
    have hxlen : x.toNat < numNodes t := by omega
    have hcm : x.toNat ∈ childrenIds t (parentId t x.toNat) :=
      (nonroot_facts hw.1 hxlen (by omega)).2
    have hxv : visB s x.toNat = true := by
      rw [visB]
      apply (node_id_visiblity_iff hps _).mpr
      rw [Int.ofNat_eq_natCast, Int.toNat_of_nonneg h0]
      exact hxs
    exact VReach.step hrp hcm hxv

/-- Full dispatch behaviour of `on_tap_node` on a valid state. -/
theorem on_tap_spec {t : DTree} {s : List Int} (_hw : WF t)
    (hv : ValidState t s) :
    ∀ k : Int,
      (on_tap_node t s k).isSome = true ∧
      (((numNodes t : Int) ≤ k ∨ node_id_visiblity s k = false) →
        on_tap_node t s k = some s) ∧
      (node_id_visiblity s k = true →
        (node_is_leaf t k.toNat = true → on_tap_node t s k = some s) ∧
        (node_is_leaf t k.toNat = false →
          node_has_hidden_child t s k.toNat = true →
          on_tap_node t s k = some (expand_children t s k.toNat)) ∧
        (node_is_leaf t k.toNat = false →
          node_has_hidden_child t s k.toNat = false →
          on_tap_node t s k = some (hide_children t s k.toNat))) := by
  have hps := validState_sorted hv
  intro k
  by_cases hge : (numNodes t : Int) ≤ k
  · have heq : on_tap_node t s k = some s := by
      unfold on_tap_node
      rw [if_pos hge]
    refine ⟨by rw [heq]; rfl, fun _ => heq, fun hvv => ?_⟩
    have hks : k ∈ s := (node_id_visiblity_iff hps k).mp hvv
    have := (hv.2.2 k hks).2.1
    omega
  · by_cases hvis : node_id_visiblity s k = true
    · have hks : k ∈ s := (node_id_visiblity_iff hps k).mp hvis
      obtain ⟨h0, hlen, -⟩ := hv.2.2 k hks
      have hidx : pyIdx (numNodes t) k = some k.toNat := by
        unfold pyIdx
        rw [if_pos ⟨h0, hlen⟩]
      have hunf : on_tap_node t s k =
          (if node_is_leaf t k.toNat then some s
           else if node_has_hidden_child t s k.toNat then
             some (expand_children t s k.toNat)
           else some (hide_children t s k.toNat)) := by
        unfold on_tap_node
        rw [if_neg hge, if_neg (by simp [hvis]), hidx]
      refine ⟨?_, ?_, ?_⟩
      · rw [hunf]
        by_cases h1 : node_is_leaf t k.toNat = true <;>
          by_cases h2 : node_has_hidden_child t s k.toNat = true <;>
          simp [h1, h2]
      · rintro (h | h)
        · omega
        · rw [hvis] at h
          cases h
      · intro _
        refine ⟨fun hl => by rw [hunf, if_pos hl],
          fun hl hh => by rw [hunf, if_neg (by simp [hl]), if_pos hh],
          fun hl hh => by
            rw [hunf, if_neg (by simp [hl]), if_neg (by simp [hh])]⟩
    · have heq : on_tap_node t s k = some s := by
        unfold on_tap_node
        rw [if_neg hge, if_pos (by simpa using hvis)]
      exact ⟨by rw [heq]; rfl, fun _ => heq, fun hvv => absurd hvv hvis⟩

/-- C4: `on_tap_node` is a no-op (returning the state unchanged, never
raising) when the id is at or beyond the node count or not currently
visible, and a no-op when the node is a leaf; when the node is visible and
some direct child is hidden it expands the node's subtree via
`expand_children` (which reveals `DISPLAY_DEPTH` levels), and when all
direct children are visible it collapses it via `hide_children`. -/
theorem C4_on_tap_dispatch {t : DTree} {s : List Int} (hw : WF t)
    (hv : ValidState t s) :
    ∀ k : Int,
      (on_tap_node t s k).isSome = true ∧
      (((numNodes t : Int) ≤ k ∨ node_id_visiblity s k = false) →
        on_tap_node t s k = some s) ∧
      (node_id_visiblity s k = true →
        (node_is_leaf t k.toNat = true → on_tap_node t s k = some s) ∧
        (node_is_leaf t k.toNat = false →
          node_has_hidden_child t s k.toNat = true →
          on_tap_node t s k = some (expand_children t s k.toNat)) ∧
        (node_is_leaf t k.toNat = false →
          node_has_hidden_child t s k.toNat = false →
          on_tap_node t s k = some (hide_children t s k.toNat))) :=
  on_tap_spec hw hv

/-- C4 (witness): the theorem applied to the fork tree in its root-only
visible state, at a tap on the root id 0. -/
theorem C4_on_tap_dispatch_witness :
    (on_tap_node forkT3 [(0 : Int)] 0).isSome = true ∧
      (((numNodes forkT3 : Int) ≤ (0 : Int) ∨
          node_id_visiblity [(0 : Int)] 0 = false) →
        on_tap_node forkT3 [(0 : Int)] 0 = some [(0 : Int)]) ∧
      (node_id_visiblity [(0 : Int)] 0 = true →
        (node_is_leaf forkT3 (0 : Int).toNat = true →
          on_tap_node forkT3 [(0 : Int)] 0 = some [(0 : Int)]) ∧
        (node_is_leaf forkT3 (0 : Int).toNat = false →
          node_has_hidden_child forkT3 [(0 : Int)] (0 : Int).toNat = true →
          on_tap_node forkT3 [(0 : Int)] 0 =
            some (expand_children forkT3 [(0 : Int)] (0 : Int).toNat)) ∧
        (node_is_leaf forkT3 (0 : Int).toNat = false →
          node_has_hidden_child forkT3 [(0 : Int)] (0 : Int).toNat = false →
          on_tap_node forkT3 [(0 : Int)] 0 =
            some (hide_children forkT3 [(0 : Int)] (0 : Int).toNat))) :=
  C4_on_tap_dispatch (by decide) (by decide) 0

/-! ### The capped breadth-first loop of expand_all -/

theorem pushChild_spec (tot : Nat) (c : Option Nat) :
    (pushChild tot c).1.Sublist c.toList ∧
      (pushChild tot c).2 = tot + (pushChild tot c).1.length ∧
      (tot + c.toList.length ≤ MAX_ELEMENTS →
        pushChild tot c = (c.toList, tot + c.toList.length)) ∧
      (tot ≤ MAX_ELEMENTS →
        (pushChild tot c).1 = c.toList ∨
          (pushChild tot c).2 = MAX_ELEMENTS) := by
  cases c with
  | none =>
    refine ⟨List.Sublist.refl _, rfl, fun _ => by simp [pushChild], fun _ => Or.inl rfl⟩
  | some d =>
    by_cases h : tot < MAX_ELEMENTS
    · refine ⟨?_, ?_, ?_, ?_⟩
      · simp [pushChild, h, Option.toList]
      · simp [pushChild, h]
      · intro _
        simp [pushChild, h, Option.toList]
      · intro _
        simp [pushChild, h, Option.toList]
    · refine ⟨?_, ?_, ?_, ?_⟩
      · simp [pushChild, h, Option.toList]
      · simp [pushChild, h]
      · intro hc
        simp [Option.toList] at hc
        omega
      · intro hc
        right
        simp [pushChild, h]
        omega

theorem pushChild_at_cap (c : Option Nat) :
    pushChild MAX_ELEMENTS c = ([], MAX_ELEMENTS) := by
  cases c with
  | none => rfl
  | some d => simp [pushChild]

theorem pushStep_sublist (t : DTree) (n tot : Nat) :
    (pushStep t n tot).1.Sublist (childrenIds t n) := by
  unfold pushStep childrenIds
  exact List.Sublist.append (pushChild_spec tot (nodeAt t n).left).1
    (pushChild_spec _ (nodeAt t n).right).1

theorem pushStep_tot (t : DTree) (n tot : Nat) :
    (pushStep t n tot).2 = tot + (pushStep t n tot).1.length := by
  unfold pushStep
  have h1 := (pushChild_spec tot (nodeAt t n).left).2.1
  have h2 := (pushChild_spec (pushChild tot (nodeAt t n).left).2
    (nodeAt t n).right).2.1
  simp only [List.length_append]
  omega

theorem pushChild_le (tot : Nat) (c : Option Nat) (h : tot ≤ MAX_ELEMENTS) :
    (pushChild tot c).2 ≤ MAX_ELEMENTS := by
  cases c with
  | none => exact h
  | some d =>
    by_cases hc : tot < MAX_ELEMENTS
    · simp [pushChild, hc]
      omega
    · simp [pushChild, hc]
      exact h

theorem pushStep_le (t : DTree) (n tot : Nat) (h : tot ≤ MAX_ELEMENTS) :
    (pushStep t n tot).2 ≤ MAX_ELEMENTS := by
  unfold pushStep
  exact pushChild_le _ _ (pushChild_le _ _ h)

theorem pushStep_full (t : DTree) (n tot : Nat)
    (h : tot + (childrenIds t n).length ≤ MAX_ELEMENTS) :
    pushStep t n tot = (childrenIds t n, tot + (childrenIds t n).length) := by
  unfold childrenIds at h ⊢
  unfold pushStep
  dsimp only
  rw [List.length_append] at h
  have h1 := (pushChild_spec tot (nodeAt t n).left).2.2.1 (by omega)
  rw [h1]
  have h2 := (pushChild_spec (tot + (nodeAt t n).left.toList.length)
    (nodeAt t n).right).2.2.1 (by omega)
  rw [h2]
  congr 1
  simp only [List.length_append]
  omega

theorem pushStep_cap (t : DTree) (n tot : Nat) (h : tot ≤ MAX_ELEMENTS) :
    (pushStep t n tot).1 = childrenIds t n ∨
      (pushStep t n tot).2 = MAX_ELEMENTS := by
  unfold childrenIds
  unfold pushStep
  dsimp only
  rcases (pushChild_spec tot (nodeAt t n).left).2.2.2 h with h1 | h1
  · have hltot : (pushChild tot (nodeAt t n).left).2 ≤ MAX_ELEMENTS :=
      pushChild_le _ _ h
    rcases (pushChild_spec (pushChild tot (nodeAt t n).left).2
        (nodeAt t n).right).2.2.2 hltot with h2 | h2
    · left
      rw [h1, h2]
    · right
      exact h2
  · right
    rw [h1, pushChild_at_cap]

theorem eaLoop_tot_le (t : DTree) :
    ∀ fuel q tot, tot ≤ MAX_ELEMENTS →
      tot ≤ (eaLoop t fuel q tot).2 ∧
        (eaLoop t fuel q tot).2 ≤ MAX_ELEMENTS := by
  intro fuel
  induction fuel with
  | zero => intro q tot h; exact ⟨Nat.le_refl _, h⟩
  | succ f ih =>
    intro q tot h
    cases q with
    | nil => exact ⟨Nat.le_refl _, h⟩
    | cons n q' =>
      rw [eaLoop]
      by_cases hlt : tot < MAX_ELEMENTS
      · simp only [hlt, if_true]
        have h2 := pushStep_le t n tot h
        have h3 := pushStep_tot t n tot
        have := ih (q' ++ (pushStep t n tot).1) (pushStep t n tot).2 h2
        exact ⟨by omega, this.2⟩
      · simp only [hlt, if_false]
        exact ⟨Nat.le_refl _, h⟩

theorem eaLoop_len_le (t : DTree) :
    ∀ fuel q tot, tot ≤ MAX_ELEMENTS →
      (eaLoop t fuel q tot).1.length + tot ≤ MAX_ELEMENTS + q.length := by
  intro fuel
  induction fuel with
  | zero => intro q tot h; simp [eaLoop]; omega
  | succ f ih =>
    intro q tot h
    cases q with
    | nil => simp [eaLoop]; omega
    | cons n q' =>
      rw [eaLoop]
      by_cases hlt : tot < MAX_ELEMENTS
      · simp only [hlt, if_true, List.length_cons]
        have h2 := pushStep_le t n tot h
        have h3 := pushStep_tot t n tot
        have := ih (q' ++ (pushStep t n tot).1) (pushStep t n tot).2 h2
        rw [List.length_append] at this
        omega
      · simp only [hlt, if_false]
        dsimp only [List.length_nil, List.length_cons]
        omega

theorem eaLoop_unblocked (t : DTree) :
    ∀ fuel q tot,
      (eaLoop t fuel q tot).2 < MAX_ELEMENTS →
      (eaLoop t fuel q tot).1 = bfsLoop t fuel q ∧
        (eaLoop t fuel q tot).2 =
          tot + ((eaLoop t fuel q tot).1.flatMap (childrenIds t)).length := by
  intro fuel
  induction fuel with
  | zero => intro q tot _; simp [eaLoop, bfsLoop]
  | succ f ih =>
    intro q tot hfin
    cases q with
    | nil => simp [eaLoop, bfsLoop]
    | cons n q' =>
      rw [eaLoop] at hfin ⊢
      by_cases hlt : tot < MAX_ELEMENTS
      · simp only [hlt, if_true] at hfin ⊢
        have htot := pushStep_tot t n tot
        have hmono := eaLoop_tot_le t f
          (q' ++ (pushStep t n tot).1) (pushStep t n tot).2
          (pushStep_le t n tot (by omega))
        have hs2 : (pushStep t n tot).2 < MAX_ELEMENTS := by omega
        have hfull : (pushStep t n tot).1 = childrenIds t n := by
          rcases pushStep_cap t n tot (by omega) with h | h
          · exact h
          · omega
        obtain ⟨he, ht⟩ := ih (q' ++ (pushStep t n tot).1)
          (pushStep t n tot).2 hfin
        constructor
        · rw [bfsLoop]
          simp only [List.cons.injEq, true_and]
          rw [he, hfull]
        · simp only [List.flatMap_cons, List.length_append]
          rw [ht, htot, hfull]
          omega
      · simp only [hlt, if_false] at hfin ⊢

theorem eaLoop_eq_bfs_of_room (t : DTree) :
    ∀ fuel q tot,
      tot + ((bfsLoop t fuel q).flatMap (childrenIds t)).length <
          MAX_ELEMENTS →
      eaLoop t fuel q tot =
        (bfsLoop t fuel q,
          tot + ((bfsLoop t fuel q).flatMap (childrenIds t)).length) := by
  intro fuel
  induction fuel with
  | zero => intro q tot _; simp [eaLoop, bfsLoop]
  | succ f ih =>
    intro q tot hroom
    cases q with
    | nil => simp [eaLoop, bfsLoop]
    | cons n q' =>
      rw [bfsLoop] at hroom ⊢
      simp only [List.flatMap_cons, List.length_append] at hroom
      rw [eaLoop]
      have hlt : tot < MAX_ELEMENTS := by omega
      simp only [hlt, if_true]
      have hfull := pushStep_full t n tot (by omega)
      rw [hfull]
      have := ih (q' ++ childrenIds t n) (tot + (childrenIds t n).length)
        (by omega)
      rw [this]
      congr 1
      simp only [List.flatMap_cons, List.length_append]
      omega

/-! ### Full breadth-first traversal facts -/

theorem root_queue {t : DTree} (hw : WF t) :
    0 < numNodes t ∧ QInv t [0] ∧ FuelOk t (numNodes t + 1) [0] := by
  have h0len : 0 < numNodes t := by
    have h := hw.1.1
    unfold numNodes
    cases hn : t.nodes with
    | nil => exact absurd hn h
    | cons a l => simp
  refine ⟨h0len, ⟨by simp, by simpa using h0len, by simp⟩, ?_⟩
  intro h hh
  simp only [List.head?_cons, Option.some.injEq] at hh
  omega

theorem bfsLoop_facts {t : DTree} (hw : WF t) :
    ∀ fuel q, QInv t q → FuelOk t fuel q →
      (∀ p ∈ q, p ∈ bfsLoop t fuel q) ∧
      (∀ p ∈ bfsLoop t fuel q, ∀ c ∈ childrenIds t p,
        c ∈ bfsLoop t fuel q) ∧
      (∀ b, (∀ p ∈ q, b ≤ p) → ∀ x ∈ bfsLoop t fuel q, b ≤ x) ∧
      (bfsLoop t fuel q).Pairwise (· < ·) ∧
      (∀ x ∈ bfsLoop t fuel q, x < numNodes t) := by
  intro fuel
  induction fuel with
  | zero =>
    intro q hinv hfo
    cases q with
    | nil => simp [bfsLoop]
    | cons n q' =>
      have h1 := hfo n rfl
      have h2 := hinv.2.1 n (List.mem_cons_self _ _)
      omega
  | succ f ih =>
    intro q hinv hfo
    cases q with
    | nil => simp [bfsLoop]
    | cons n q' =>
      have hn : n < numNodes t := hinv.2.1 n (List.mem_cons_self _ _)
      have hstep := qinv_step hw hinv (List.Sublist.refl (childrenIds t n))
      have hfo' : FuelOk t f (q' ++ childrenIds t n) := by
        intro h hh
        have hmem := List.mem_of_mem_head? hh
        have h1 := hstep.2 h hmem
        have h2 := hfo n rfl
        omega
      obtain ⟨ih1, ih2, ih3, ih4, ih5⟩ := ih _ hstep.1 hfo'
      rw [bfsLoop]
      refine ⟨?_, ?_, ?_, ?_, ?_⟩
      · intro p hp
        rcases List.mem_cons.mp hp with rfl | hp2
        · exact List.mem_cons_self _ _
        · exact List.mem_cons_of_mem _
            (ih1 p (List.mem_append.mpr (Or.inl hp2)))
      · intro p hp c hc
        rcases List.mem_cons.mp hp with rfl | hp2
        · exact List.mem_cons_of_mem _
            (ih1 c (List.mem_append.mpr (Or.inr hc)))
        · exact List.mem_cons_of_mem _ (ih2 p hp2 c hc)
      · intro b hb x hx
        rcases List.mem_cons.mp hx with rfl | hx2
        · exact hb x (List.mem_cons_self _ _)
        · refine ih3 b ?_ x hx2
          intro p hp
          rcases List.mem_append.mp hp with hp2 | hp2
          · exact hb p (List.mem_cons_of_mem _ hp2)
          · have h1 := children_gt hw.1 hn hp2
            have h2 := hb n (List.mem_cons_self _ _)
            omega
      · rw [List.pairwise_cons]
        refine ⟨?_, ih4⟩
        intro x hx
        have : n + 1 ≤ x := by
          refine ih3 (n + 1) ?_ x hx
          intro p hp
          exact hstep.2 p hp
        omega
      · intro x hx
        rcases List.mem_cons.mp hx with rfl | hx2
        · exact hn
        · exact ih5 x hx2

theorem bfs_root_complete {t : DTree} (hw : WF t) :
    ∀ i, i < numNodes t → i ∈ bfsLoop t (numNodes t + 1) [0] := by
  obtain ⟨h0len, hq, hf⟩ := root_queue hw
  obtain ⟨h1, h2, -, -, -⟩ := bfsLoop_facts hw (numNodes t + 1) [0] hq hf
  intro i
  induction i using Nat.strong_induction_on with
  | _ i sih =>
    intro hi
    rcases Nat.eq_zero_or_pos i with rfl | hpos
    · exact h1 0 (by simp)
    · obtain ⟨hplt, hcm⟩ := nonroot_facts hw.1 hi hpos
      exact h2 _ (sih _ hplt (by omega)) i hcm

theorem bfs_root_eq_range {t : DTree} (hw : WF t) :
    bfsLoop t (numNodes t + 1) [0] = List.range (numNodes t) := by
  obtain ⟨h0len, hq, hf⟩ := root_queue hw
  obtain ⟨-, -, -, h4, h5⟩ := bfsLoop_facts hw (numNodes t + 1) [0] hq hf
  refine pairwise_lt_ext h4 (List.pairwise_lt_range _) ?_
  intro x
  rw [List.mem_range]
  exact ⟨fun hx => h5 x hx, fun hx => bfs_root_complete hw x hx⟩

theorem count_children_total {t : DTree} (hw : WF t) :
    (nextLevel t (List.range (numNodes t))).length = numNodes t - 1 := by
  have hpw : (List.range (numNodes t)).Pairwise (· < ·) :=
    List.pairwise_lt_range _
  have hb : ∀ p ∈ List.range (numNodes t), p < numNodes t :=
    fun p hp => List.mem_range.mp hp
  have hnl := nextLevel_pairwise hw _ hpw hb
  have h0len := (root_queue hw).1
  have heq : nextLevel t (List.range (numNodes t)) =
      List.range' 1 (numNodes t - 1) := by
    refine pairwise_lt_ext hnl (List.pairwise_lt_range' _ _) ?_
    intro x
    rw [List.mem_range'_1]
    constructor
    · intro hx
      obtain ⟨p, hp, hc⟩ := mem_nextLevel.mp hx
      have hplen := hb p hp
      have h1 := children_pos hw.1 hplen hc
      have h2 := (child_facts hw.1 hplen hc).1
      omega
    · rintro ⟨h1, h2⟩
      refine mem_nextLevel.mpr ⟨parentId t x, ?_,
        (nonroot_facts hw.1 (by omega) (by omega)).2⟩
      rw [List.mem_range]
      have := (nonroot_facts hw.1 (show x < numNodes t by omega)
        (by omega)).1
      omega
  rw [heq]
  simp

theorem eaLoop_valid {t : DTree} (hw : WF t) :
    ∀ fuel q tot, QInv t q → FuelOk t fuel q →
      ((eaLoop t fuel q tot).1.Pairwise (· < ·)) ∧
      (∀ x ∈ (eaLoop t fuel q tot).1, x < numNodes t) ∧
      (∀ b, (∀ p ∈ q, b ≤ p) → ∀ x ∈ (eaLoop t fuel q tot).1, b ≤ x) ∧
      (∀ x ∈ (eaLoop t fuel q tot).1, x ∉ q →
        ∃ p ∈ (eaLoop t fuel q tot).1, x ∈ childrenIds t p) := by
  intro fuel
  induction fuel with
  | zero => intro q tot hinv hfo; simp [eaLoop]
  | succ f ih =>
    intro q tot hinv hfo
    cases q with
    | nil => simp [eaLoop]
    | cons n q' =>
      have hn : n < numNodes t := hinv.2.1 n (List.mem_cons_self _ _)
      rw [eaLoop]
      by_cases hlt : tot < MAX_ELEMENTS
      · simp only [hlt, if_true]
        have hstep := qinv_step hw hinv (pushStep_sublist t n tot)
        have hfo' : FuelOk t f (q' ++ (pushStep t n tot).1) := by
          intro h hh
          have hmem := List.mem_of_mem_head? hh
          have h1 := hstep.2 h hmem
          have h2 := hfo n rfl
          omega
        obtain ⟨ih1, ih2, ih3, ih4⟩ := ih _ (pushStep t n tot).2 hstep.1 hfo'
        refine ⟨?_, ?_, ?_, ?_⟩
        · rw [List.pairwise_cons]
          refine ⟨?_, ih1⟩
          intro x hx
          have : n + 1 ≤ x := ih3 (n + 1) (fun p hp => hstep.2 p hp) x hx
          omega
        · intro x hx
          rcases List.mem_cons.mp hx with rfl | hx2
          · exact hn
          · exact ih2 x hx2
        · intro b hb x hx
          rcases List.mem_cons.mp hx with rfl | hx2
          · exact hb x (List.mem_cons_self _ _)
          · refine ih3 b ?_ x hx2
            intro p hp
            rcases List.mem_append.mp hp with hp2 | hp2
            · exact hb p (List.mem_cons_of_mem _ hp2)
            · have h1 := children_gt hw.1 hn ((pushStep_sublist t n tot).mem hp2)
              have h2 := hb n (List.mem_cons_self _ _)
              omega
        · intro x hx hxq
          rcases List.mem_cons.mp hx with rfl | hx2
          · exact absurd (List.mem_cons_self _ _) hxq
          · by_cases hxin : x ∈ q' ++ (pushStep t n tot).1
            · rcases List.mem_append.mp hxin with hx3 | hx3
              · exact absurd (List.mem_cons_of_mem _ hx3) hxq
              · exact ⟨n, List.mem_cons_self _ _,
                  (pushStep_sublist t n tot).mem hx3⟩
            · obtain ⟨p, hp, hc⟩ := ih4 x hx2 hxin
              exact ⟨p, List.mem_cons_of_mem _ hp, hc⟩
      · simp only [hlt, if_false]
        simp

set_option maxRecDepth 4000 in
/-- C3 (counterexample): the path tree on exactly `MAX_ELEMENTS` (500) nodes
fits under the cap (node count ≤ cap), yet `expand_all` returns false — the
code returns `tot < MAX_ELEMENTS` and `tot` reaches exactly the cap — so
"returns true exactly when the tree's node count is ≤ the cap" fails at the
boundary. -/
theorem C3_counterexample :
    WF (pathTree 500) ∧ numNodes (pathTree 500) ≤ MAX_ELEMENTS ∧
      (expand_all (pathTree 500)).2 = false := by
  refine ⟨by decide, by decide, by decide⟩

/-- Full behaviour of `expand_all`: length bound, return value, validity. -/
theorem expand_all_spec {t : DTree} (hw : WF t) :
    (expand_all t).1.length ≤ MAX_ELEMENTS ∧
      ((expand_all t).2 = true ↔ numNodes t < MAX_ELEMENTS) ∧
      ValidState t (expand_all t).1 := by
  obtain ⟨h0len, hq, hf⟩ := root_queue hw
  have hmax1 : (1 : Nat) ≤ MAX_ELEMENTS := by norm_num [MAX_ELEMENTS]
  have hflat : (List.range (numNodes t)).flatMap (childrenIds t) =
      nextLevel t (List.range (numNodes t)) := rfl
  refine ⟨?_, ?_, ?_⟩
  · unfold expand_all
    dsimp only
    rw [List.length_map]
    have := eaLoop_len_le t (numNodes t + 1) [0] 1 hmax1
    simp only [List.length_cons, List.length_nil] at this
    omega
  · unfold expand_all
    dsimp only
    rw [decide_eq_true_iff]
    constructor
    · intro hlt
      obtain ⟨he, ht⟩ := eaLoop_unblocked t (numNodes t + 1) [0] 1 hlt
      rw [he, bfs_root_eq_range hw, hflat, count_children_total hw] at ht
      omega
    · intro hlen
      have hroom : 1 + ((bfsLoop t (numNodes t + 1) [0]).flatMap
          (childrenIds t)).length < MAX_ELEMENTS := by
        rw [bfs_root_eq_range hw, hflat, count_children_total hw]
        omega
      rw [eaLoop_eq_bfs_of_room t (numNodes t + 1) [0] 1 hroom]
      dsimp only
      rw [bfs_root_eq_range hw, hflat, count_children_total hw]
      omega
  · obtain ⟨hv1, hv2, hv3, hv4⟩ := eaLoop_valid hw (numNodes t + 1) [0] 1 hq hf
    have h0mem : 0 ∈ (eaLoop t (numNodes t + 1) [0] 1).1 := by
      rw [eaLoop]
      rw [if_pos (show (1:Nat) < MAX_ELEMENTS by norm_num [MAX_ELEMENTS])]
      dsimp only
      exact List.mem_cons_self _ _
    refine ⟨?_, ?_, ?_⟩
    · unfold expand_all
      dsimp only
      exact List.Pairwise.map _ (fun a b h => Int.ofNat_lt.mpr h) hv1
    · unfold expand_all
      dsimp only
      exact List.mem_map.mpr ⟨0, h0mem, rfl⟩
    · unfold expand_all
      dsimp only
      intro x hx
      obtain ⟨m, hm, rfl⟩ := List.mem_map.mp hx
      refine ⟨Int.ofNat_nonneg m,
        by rw [Int.ofNat_eq_natCast]; exact_mod_cast hv2 m hm, ?_⟩
      intro hz
      have hm0 : m ≠ 0 := by
        intro h
        subst h
        exact hz rfl
      obtain ⟨p, hp, hc⟩ := hv4 m hm (by simpa using hm0)
      have hplen := hv2 p hp
      have hpid : parentId t (Int.ofNat m).toNat = p := by
        show parentId t m = p
        exact parentId_of_child hw.1 hplen hc
      rw [hpid]
      exact List.mem_map.mpr ⟨p, hp, rfl⟩

/-- C3 (amended): `expand_all` replaces the visibility array wholesale with
a breadth-first-from-root prefix of the tree in ascending id order, never
returns an array longer than `MAX_ELEMENTS`, and returns true exactly when
the tree's node count is strictly below the cap; the resulting array is
always a valid rooted, connectivity-respecting state (also when it returns
false). -/
theorem C3_expand_all_spec {t : DTree} (hw : WF t) :
    (expand_all t).1.length ≤ MAX_ELEMENTS ∧
      ((expand_all t).2 = true ↔ numNodes t < MAX_ELEMENTS) ∧
      ValidState t (expand_all t).1 :=
  expand_all_spec hw

/-- C3 (witness): the amended theorem at the chain tree (3 nodes, fits). -/
theorem C3_expand_all_spec_witness :
    (expand_all chainT3).1.length ≤ MAX_ELEMENTS ∧
      ((expand_all chainT3).2 = true ↔ numNodes chainT3 < MAX_ELEMENTS) ∧
      ValidState chainT3 (expand_all chainT3).1 :=
  C3_expand_all_spec (by decide)

/-! ### Validation is the identity on valid states -/

theorem validateLoop_keeps {t : DTree} (hw : WF t) {s : List Int}
    (hv : ValidState t s) :
    ∀ suf pre, s = pre ++ suf → pre ≠ [] → validateLoop t suf pre = some s := by
  intro suf
  induction suf with
  | nil =>
    intro pre h hne
    rw [validateLoop, h]
    simp
  | cons x r ih =>
    intro pre h hne
    have hp := validState_sorted hv
    have hxs : x ∈ s := by
      rw [h]
      exact List.mem_append_right _ (List.mem_cons_self _ _)
    obtain ⟨hx0, hxlen, hpar⟩ := hv.2.2 x hxs
    obtain ⟨s', hs'⟩ := validState_cons hv
    cases pre with
    | nil => exact absurd rfl hne
    | cons p0 pre' =>
      have hp00 : p0 = 0 := by
        rw [hs'] at h
        exact (List.cons.inj h).1.symm
      have hxpos : 0 < x := by
        rw [h] at hp
        obtain ⟨hlt, -⟩ := List.pairwise_cons.mp hp
        have := hlt x (List.mem_append_right _ (List.mem_cons_self _ _))
        omega
      rw [validateLoop]
      rw [if_neg (by omega)]
      have hidx : pyIdx (numNodes t) x = some x.toNat := by
        unfold pyIdx
        rw [if_pos ⟨by omega, by omega⟩]
      rw [hidx]
      have hnatlen : x.toNat < numNodes t := by omega
      obtain ⟨hne2, -, -⟩ := hw.1.2.2.1 x.toNat hnatlen (by omega)
      cases hpp : (nodeAt t x.toNat).parent with
      | none => exact absurd hpp hne2
      | some p =>
        have hpid : parentId t x.toNat = p := by simp [parentId, hpp]
        simp only [hpp]
        have hparmem : (p : Int) ∈ s := by
          rw [← hpid]
          exact hpar (by omega)
        have hplt : (p : Int) < x := by
          have h1 := (nonroot_facts hw.1 hnatlen (by omega)).1
          rw [hpid] at h1
          omega
        have hpmem : (p : Int) ∈ p0 :: pre' := by
          rw [h] at hparmem
          rcases List.mem_append.mp hparmem with h2 | h2
          · exact h2
          · exfalso
            rw [h] at hp
            have hsub : (x :: r).Pairwise (· < ·) :=
              (List.pairwise_append.mp (List.pairwise_cons.mp hp).2).2.1
            rcases List.mem_cons.mp h2 with h3 | h3
            · omega
            · have := (List.pairwise_cons.mp hsub).1 _ h3
              omega
        rw [if_pos hpmem]
        refine ih ((p0 :: pre') ++ [x]) ?_ (by simp)
        rw [h]
        simp

theorem validate_of_valid {t : DTree} (hw : WF t) {s : List Int}
    (hv : ValidState t s) : validate_visiblity_state t s = some s := by
  obtain ⟨s', hs'⟩ := validState_cons hv
  unfold validate_visiblity_state
  have hdrop : s.drop 1 = s' := by
    rw [hs']
    rfl
  rw [hdrop]
  exact validateLoop_keeps hw hv s' [0] (by rw [hs']; rfl) (by simp)

/-- C1 (counterexample): on the chain tree `0 → 1 → 2` with the valid state
`[0]`, calling `expand_children` on the hidden node 1 yields `[0, 2]`, in
which node 2's parent 1 is not present — expansion of an invisible node
breaks the connectivity invariant, so the claim fails as stated. -/
theorem C1_counterexample :
    WF chainT3 ∧ ValidState chainT3 [(0 : Int)] ∧
      ¬ ValidState chainT3 (expand_children chainT3 [(0 : Int)] 1) := by
  refine ⟨by decide, by decide, by decide⟩

/-- C1 (amended): for every valid sparse visibility state — strictly
ascending, duplicate-free, containing the root id 0, every member a valid
id whose parent id is also a member — each operation yields a state with
those same properties: `expand_children` provided the expanded node is
currently visible (expanding a hidden node can break connectivity, see the
counterexample), `hide_children` on any node, `on_tap_node` on any id
(which also never raises), `expand_all`, and `_validate_visiblity_state`
(which returns the state itself unchanged). -/
theorem C1_operations_preserve_validity {t : DTree} {s : List Int}
    (hw : WF t) (hv : ValidState t s) :
    (∀ n : Nat, n < numNodes t → node_id_visiblity s (Int.ofNat n) = true →
      ValidState t (expand_children t s n)) ∧
    (∀ n : Nat, n < numNodes t → ValidState t (hide_children t s n)) ∧
    (∀ k : Int, ∃ s', on_tap_node t s k = some s' ∧ ValidState t s') ∧
    ValidState t (expand_all t).1 ∧
    validate_visiblity_state t s = some s := by
  refine ⟨?_, ?_, ?_, (expand_all_spec hw).2.2, validate_of_valid hw hv⟩
  · intro n hn hvis
    exact expand_children_valid hw hv hn
      ((node_id_visiblity_iff hv.1 _).mp hvis)
  · intro n hn
    exact hide_children_valid hw hv hn
  · intro k
    obtain ⟨hsome, hnoop, hdisp⟩ := on_tap_spec hw hv k
    by_cases hge : (numNodes t : Int) ≤ k
    · exact ⟨s, hnoop (Or.inl hge), hv⟩
    by_cases hvis : node_id_visiblity s k = true
    · have hks : k ∈ s := (node_id_visiblity_iff hv.1 k).mp hvis
      obtain ⟨h0, hlen, -⟩ := hv.2.2 k hks
      obtain ⟨hleaf, hexp, hhide⟩ := hdisp hvis
      by_cases hl : node_is_leaf t k.toNat = true
      · exact ⟨s, hleaf hl, hv⟩
      · have hl' : node_is_leaf t k.toNat = false := by
          simpa using hl
        by_cases hh : node_has_hidden_child t s k.toNat = true
        · refine ⟨_, hexp hl' hh, ?_⟩
          apply expand_children_valid hw hv (by omega)
          have hofnat : Int.ofNat k.toNat = k := by
            rw [Int.ofNat_eq_natCast]
            exact Int.toNat_of_nonneg h0
          rw [hofnat]
          exact hks
        · have hh' : node_has_hidden_child t s k.toNat = false := by
            simpa using hh
          exact ⟨_, hhide hl' hh', hide_children_valid hw hv (by omega)⟩
    · have hvis' : node_id_visiblity s k = false := by simpa using hvis
      exact ⟨s, hnoop (Or.inr hvis'), hv⟩

/-- C1 (witness): the amended theorem at the chain tree with state
`[0, 1]`. -/
theorem C1_operations_preserve_validity_witness :
    (∀ n : Nat, n < numNodes chainT3 →
      node_id_visiblity [(0 : Int), 1] (Int.ofNat n) = true →
      ValidState chainT3 (expand_children chainT3 [(0 : Int), 1] n)) ∧
    (∀ n : Nat, n < numNodes chainT3 →
      ValidState chainT3 (hide_children chainT3 [(0 : Int), 1] n)) ∧
    (∀ k : Int, ∃ s', on_tap_node chainT3 [(0 : Int), 1] k = some s' ∧
      ValidState chainT3 s') ∧
    ValidState chainT3 (expand_all chainT3).1 ∧
    validate_visiblity_state chainT3 [(0 : Int), 1] = some [(0 : Int), 1] :=
  C1_operations_preserve_validity (by decide) (by decide)

/-! ### Expand followed by hide on a fully collapsed node -/

theorem desc_not_in_state {t : DTree} {s : List Int} {n : Nat} (hw : WF t)
    (hv : ValidState t s)
    (hhid : ∀ c ∈ childrenIds t n, node_id_visiblity s (Int.ofNat c) = false) :
    ∀ (x k : Nat), StepsDown t n x k → 1 ≤ k → (Int.ofNat x) ∉ s := by
  intro x k h
  induction h with
  | refl => omega
  | step hs hc ih =>
    intro _
    cases hs with
    | refl =>
      have hfalse := hhid _ hc
      rw [Int.ofNat_eq_natCast] at hfalse
      rw [← node_id_visiblity_iff hv.1]
      simp only [Int.ofNat_eq_natCast]
      simp [hfalse]
    | step hs2 hc2 =>
      intro hmem
      have hplen := mem_children_parent_lt hc
      obtain ⟨-, -, hpar⟩ := hv.2.2 _ hmem
      have hxpos := children_pos hw.1 hplen hc
      have hpid := parentId_of_child hw.1 hplen hc
      have hparmem := hpar (by
        rw [Int.ofNat_eq_natCast]
        exact_mod_cast Nat.pos_iff_ne_zero.mp hxpos)
      rw [Int.ofNat_eq_natCast, Int.toNat_natCast, hpid] at hparmem
      refine ih (by omega) ?_
      rw [Int.ofNat_eq_natCast]
      exact hparmem

theorem vreach_expand_iff {t : DTree} {s : List Int} {n : Nat} (hw : WF t)
    (hv : ValidState t s) (hn : n < numNodes t)
    (hhid : ∀ c ∈ childrenIds t n, node_id_visiblity s (Int.ofNat c) = false) :
    ∀ x : Nat, VReach t (visB (expand_children t s n)) n x ↔
      x ∈ expandLevels t DISPLAY_DEPTH [n] := by
  have hps' : (expand_children t s n).Pairwise (· < ·) := by
    unfold expand_children
    exact snpMergeDrop_pairwise hv.1 (expand_update_pairwise hw hn)
  have hvisb : ∀ c : Nat, visB (expand_children t s n) c = true ↔
      (Int.ofNat c) ∈ expand_children t s n := by
    intro c
    rw [visB]
    exact node_id_visiblity_iff hps' _
  have hlvlof : ∀ c : Nat, c ∈ expandLevels t DISPLAY_DEPTH [n] →
      visB (expand_children t s n) c = true := by
    intro c hc
    rw [hvisb c]
    exact mem_expand_children.mpr (Or.inr (List.mem_map.mpr ⟨c, hc, rfl⟩))
  have hsd : ∀ x : Nat, x ∈ expandLevels t DISPLAY_DEPTH [n] ↔
      ∃ k, 1 ≤ k ∧ k ≤ DISPLAY_DEPTH ∧ StepsDown t n x k := by
    intro x
    rw [mem_expandLevels DISPLAY_DEPTH [n] x]
    constructor
    · rintro ⟨k, h1, h2, p, hp, hs2⟩
      have : p = n := by simpa using hp
      subst this
      exact ⟨k, h1, h2, hs2⟩
    · rintro ⟨k, h1, h2, hs2⟩
      exact ⟨k, h1, h2, n, by simp, hs2⟩
  intro x
  constructor
  · intro hr
    induction hr with
    | child hc hvx =>
      refine (hsd _).mpr ⟨1, Nat.le_refl _, by decide, ?_⟩
      exact StepsDown.step (StepsDown.refl n) hc
    | step hr2 hc hvx ih =>
      obtain ⟨k, h1, h2, hs2⟩ := (hsd _).mp ih
      by_cases hk : k + 1 ≤ DISPLAY_DEPTH
      · exact (hsd _).mpr ⟨k + 1, by omega, hk, StepsDown.step hs2 hc⟩
      · exfalso
        have hstep : StepsDown t n _ (k + 1) := StepsDown.step hs2 hc
        have hmem := (hvisb _).mp hvx
        rcases mem_expand_children.mp hmem with hin | hin
        · exact desc_not_in_state hw hv hhid _ (k + 1) hstep (by omega) hin
        · obtain ⟨m, hm, hmeq⟩ := List.mem_map.mp hin
          have hmx := Int.ofNat.inj hmeq
          subst hmx
          obtain ⟨k', h1', h2', hs2'⟩ := (hsd _).mp hm
          have hd1 := stepsDown_depth hw.1 hn hstep
          have hd2 := stepsDown_depth hw.1 hn hs2'
          omega
  · have hback : ∀ k x, 1 ≤ k → k ≤ DISPLAY_DEPTH → StepsDown t n x k →
        VReach t (visB (expand_children t s n)) n x := by
      intro k
      induction k using Nat.strong_induction_on with
      | _ k ih =>
        intro x h1 h2 hs2
        have hvx : visB (expand_children t s n) x = true :=
          hlvlof x ((hsd x).mpr ⟨k, h1, h2, hs2⟩)
        cases hs2 with
        | refl => omega
        | step hs3 hc3 =>
          cases hs3 with
          | refl => exact VReach.child hc3 hvx
          | step hs4 hc4 =>
            have hrp := ih _ (by omega) _ (by omega) (by omega)
              (StepsDown.step hs4 hc4)
            exact VReach.step hrp hc3 hvx
    intro hx
    obtain ⟨k, h1, h2, hs2⟩ := (hsd _).mp hx
    exact hback k x h1 h2 hs2

/-- C6 (counterexample): on the fork tree with valid state `[0, 1]` (child
1 already visible), expanding node 0 and then immediately collapsing it
yields `[0]`, not the pre-expand value `[0, 1]` — the collapse removes every
visible descendant, including those already visible before the expand. -/
theorem C6_counterexample :
    WF forkT3 ∧ ValidState forkT3 [(0 : Int), 1] ∧
      node_id_visiblity [(0 : Int), 1] (Int.ofNat 0) = true ∧
      node_is_leaf forkT3 0 = false ∧
      hide_children forkT3 (expand_children forkT3 [(0 : Int), 1] 0) 0 ≠
        [(0 : Int), 1] := by
  refine ⟨by decide, by decide, by decide, by decide, by decide⟩

/-- C6 (amended): for every valid visibility state and every visible
non-leaf node all of whose direct children are hidden (a fully collapsed
node — the only case in which `on_tap_node` chooses to expand), calling
`expand_children` on that node followed immediately by `hide_children` on
the same node returns the visibility array to its exact pre-expand value.
When some descendant of the node was already visible before the expand,
the collapse also removes it (see the counterexample). -/
theorem C6_expand_hide_roundtrip {t : DTree} {s : List Int} {n : Nat}
    (hw : WF t) (hv : ValidState t s) (hn : n < numNodes t)
    (hvis : node_id_visiblity s (Int.ofNat n) = true)
    (_hleaf : node_is_leaf t n = false)
    (hhid : ∀ c ∈ childrenIds t n,
      node_id_visiblity s (Int.ofNat c) = false) :
    hide_children t (expand_children t s n) n = s := by
  have hsv' : ValidState t (expand_children t s n) :=
    expand_children_valid hw hv hn ((node_id_visiblity_iff hv.1 _).mp hvis)
  have hps' := hsv'.1
  have hsb' : ∀ x ∈ expand_children t s n, 0 ≤ x :=
    fun x hx => (hsv'.2.2 x hx).1
  have hmem := mem_hide_children hw hps' hsb' hn
  have hvr := vreach_expand_iff hw hv hn hhid
  have hpr : (hide_children t (expand_children t s n) n).Pairwise (· < ·) :=
    hps'.sublist (npDelete_sublist _ _)
  refine pairwise_lt_ext hpr hv.1 ?_
  intro y
  rw [hmem y, mem_expand_children]
  constructor
  · rintro ⟨hy | hy, hnr⟩
    · exact hy
    · exfalso
      obtain ⟨m, hm, rfl⟩ := List.mem_map.mp hy
      exact hnr ((hvr m).mpr hm)
  · intro hy
    refine ⟨Or.inl hy, ?_⟩
    intro hr
    have hlm := (hvr y.toNat).mp hr
    obtain ⟨k, h1, h2, p, hp, hs2⟩ :=
      (mem_expandLevels DISPLAY_DEPTH [n] y.toNat).mp hlm
    have hpn : p = n := by simpa using hp
    subst hpn
    apply desc_not_in_state hw hv hhid y.toNat k hs2 h1
    have h0 := (hv.2.2 y hy).1
    rw [Int.ofNat_eq_natCast, Int.toNat_of_nonneg h0]
    exact hy

/-- C6 (witness): the amended theorem on the fork tree with only the root
visible. -/
theorem C6_expand_hide_roundtrip_witness :
    hide_children forkT3 (expand_children forkT3 [(0 : Int)] 0) 0 =
      [(0 : Int)] :=
  C6_expand_hide_roundtrip (by decide) (by decide) (by decide) (by decide)
    (by decide) (by decide)

/-! ### The eager representation: supporting lemmas -/

theorem getD_set_bool : ∀ (l : List Bool) (i x : Nat) (b : Bool),
    (l.set i b).getD x false =
      if x = i ∧ i < l.length then b else l.getD x false := by
  intro l
  induction l with
  | nil => intro i x b; simp
  | cons a tl ih =>
    intro i x b
    cases i with
    | zero =>
      cases x with
      | zero => simp
      | succ x' => simp
    | succ i' =>
      cases x with
      | zero => simp
      | succ x' =>
        simp only [List.set_cons_succ, List.getD_cons_succ, List.length_cons]
        rw [ih i' x' b]
        by_cases h : x' = i' ∧ i' < tl.length
        · rw [if_pos h, if_pos (by omega)]
        · rw [if_neg h, if_neg (by omega)]

theorem nvisAt_setVisE (st : EState) (i x : Nat) (b : Bool) :
    nvisAt (setVisE i b st) x =
      if x = i ∧ i < st.nvis.length then b else nvisAt st x := by
  unfold nvisAt setVisE
  exact getD_set_bool st.nvis i x b

theorem setVisE_nvis_length (st : EState) (i : Nat) (b : Bool) :
    (setVisE i b st).nvis.length = st.nvis.length := by
  unfold setVisE
  simp

theorem same_steps_unique {t : DTree} (hw : WFBasic t) :
    ∀ (j a b x : Nat), StepsDown t a x j → StepsDown t b x j → a = b := by
  intro j
  induction j with
  | zero =>
    intro a b x h1 h2
    cases h1 with
    | refl =>
      cases h2 with
      | refl => rfl
  | succ j' ih =>
    intro a b x h1 h2
    cases h1 with
    | step hs1 hc1 =>
      cases h2 with
      | step hs2 hc2 =>
        have hp1 := parentId_of_child hw (mem_children_parent_lt hc1) hc1
        have hp2 := parentId_of_child hw (mem_children_parent_lt hc2) hc2
        have heq : _ = _ := hp1 ▸ hp2.symm
        rw [hp1] at hp2
        exact ih a b _ hs1 (hp2 ▸ hs2)

theorem sibling_desc_disjoint {t : DTree} (hw : WFBasic t) {n c d : Nat}
    (hn : n < numNodes t) (hc : c ∈ childrenIds t n)
    (hd : d ∈ childrenIds t n) (hne : c ≠ d) :
    ∀ x j k, StepsDown t c x j → StepsDown t d x k → False := by
  intro x j k h1 h2
  have hcl : c < numNodes t := (child_facts hw hn hc).1
  have hdl : d < numNodes t := (child_facts hw hn hd).1
  have d1 := stepsDown_depth hw hcl h1
  have d2 := stepsDown_depth hw hdl h2
  have dc := depth_child hw hn hc
  have dd := depth_child hw hn hd
  have hjk : j = k := by omega
  subst hjk
  exact hne (same_steps_unique hw j c d x h1 h2)

theorem vreach_steps {t : DTree} {vis : Nat → Bool} {n x : Nat}
    (h : VReach t vis n x) : ∃ k, 1 ≤ k ∧ StepsDown t n x k := by
  induction h with
  | child hc hv => exact ⟨1, Nat.le_refl _, StepsDown.step (StepsDown.refl n) hc⟩
  | step hs hc hv ih =>
    obtain ⟨k, h1, h2⟩ := ih
    exact ⟨k + 1, by omega, StepsDown.step h2 hc⟩

theorem vreach_congr {t : DTree} {v1 v2 : Nat → Bool} {n : Nat}
    (h : ∀ y k, 1 ≤ k → StepsDown t n y k → v1 y = v2 y) :
    ∀ x, VReach t v1 n x ↔ VReach t v2 n x := by
  have dir : ∀ (w1 w2 : Nat → Bool),
      (∀ y k, 1 ≤ k → StepsDown t n y k → w1 y = w2 y) →
      ∀ x, VReach t w1 n x → VReach t w2 n x := by
    intro w1 w2 hw12 x hr
    induction hr with
    | child hc hv =>
      refine VReach.child hc ?_
      rw [← hw12 _ 1 (Nat.le_refl _) (StepsDown.step (StepsDown.refl n) hc)]
      exact hv
    | step hs hc hv ih =>
      obtain ⟨k, hk1, hk2⟩ := vreach_steps hs
      refine VReach.step ih hc ?_
      rw [← hw12 _ (k + 1) (by omega) (StepsDown.step hk2 hc)]
      exact hv
  intro x
  exact ⟨dir v1 v2 h x, dir v2 v1 (fun y k h1 h2 => (h y k h1 h2).symm) x⟩

theorem vreach_via_children {t : DTree} {vis : Nat → Bool} {n x : Nat} :
    VReach t vis n x ↔
      ∃ c ∈ childrenIds t n, vis c = true ∧ (x = c ∨ VReach t vis c x) := by
  constructor
  · intro h
    rcases vreach_first h with ⟨hc, hv⟩ | ⟨c, hc, hv, hr⟩
    · exact ⟨x, hc, hv, Or.inl rfl⟩
    · exact ⟨c, hc, hv, Or.inr hr⟩
  · rintro ⟨c, hc, hv, rfl | hr⟩
    · exact VReach.child hc hv
    · exact vreach_trans (VReach.child hc hv) hr

theorem showDfs_conn {t : DTree} (hw : WFBasic t) :
    ∀ (g n : Nat) (st : EState), n < numNodes t →
      numNodes t ≤ st.nvis.length → ConnectedE t st →
      (n = 0 ∨ nvisAt st (parentId t n) = true) →
      ConnectedE t (showDfs t g n st) ∧
        (showDfs t g n st).nvis.length = st.nvis.length ∧
        (∀ x, nvisAt st x = true → nvisAt (showDfs t g n st) x = true) := by
  intro g
  induction g with
  | zero => intro n st _ _ hc _; exact ⟨hc, rfl, fun x h => h⟩
  | succ g ih =>
    intro n st hn hlen hc hguard
    have hlen1 : (setVisE n true st).nvis.length = st.nvis.length :=
      setVisE_nvis_length st n true
    have hnin : n < st.nvis.length := by omega
    have hvis1 : ∀ x, nvisAt (setVisE n true st) x = true ↔
        (x = n ∨ nvisAt st x = true) := by
      intro x
      rw [nvisAt_setVisE]
      by_cases hx : x = n
      · simp [hx, hnin]
      · simp [hx]
    have hc1 : ConnectedE t (setVisE n true st) := by
      intro i hi h0 hvi
      rw [hvis1] at hvi
      rw [hvis1]
      rcases hvi with rfl | hvi
      · rcases hguard with heq | hg
        · exact absurd h0 (by omega)
        · exact Or.inr hg
      · exact Or.inr (hc i hi h0 hvi)
    have hmono1 : ∀ x, nvisAt st x = true →
        nvisAt (setVisE n true st) x = true :=
      fun x hx => (hvis1 x).mpr (Or.inr hx)
    have hvn1 : nvisAt (setVisE n true st) n = true :=
      (hvis1 n).mpr (Or.inl rfl)
    -- generic processing of one child call on a state where n is visible
    have hchild : ∀ (c : Nat) (st' : EState), c ∈ childrenIds t n →
        st'.nvis.length = st.nvis.length → ConnectedE t st' →
        nvisAt st' n = true →
        ConnectedE t (showDfs t g c st') ∧
          (showDfs t g c st').nvis.length = st.nvis.length ∧
          (∀ x, nvisAt st' x = true → nvisAt (showDfs t g c st') x = true) ∧
          nvisAt (showDfs t g c st') n = true := by
      intro c st' hcm hlen' hco hvn
      have hcb : c < numNodes t := (child_facts hw hn hcm).1
      have hpid : parentId t c = n := parentId_of_child hw hn hcm
      obtain ⟨h1, h2, h3⟩ := ih c st' hcb (by omega) hco
        (Or.inr (by rw [hpid]; exact hvn))
      exact ⟨h1, by omega, h3, h3 n hvn⟩
    rw [showDfs]
    cases hl : (nodeAt t n).left with
    | none =>
      cases hr : (nodeAt t n).right with
      | none => exact ⟨hc1, hlen1, hmono1⟩
      | some cr =>
        have hcrm : cr ∈ childrenIds t n := mem_childrenIds.mpr (Or.inr hr)
        obtain ⟨h1, h2, h3, -⟩ := hchild cr (setVisE n true st) hcrm hlen1 hc1 hvn1
        exact ⟨h1, h2, fun x hx => h3 x (hmono1 x hx)⟩
    | some cl =>
      have hclm : cl ∈ childrenIds t n := mem_childrenIds.mpr (Or.inl hl)
      obtain ⟨h1, h2, h3, h4⟩ := hchild cl (setVisE n true st) hclm hlen1 hc1 hvn1
      cases hr : (nodeAt t n).right with
      | none => exact ⟨h1, h2, fun x hx => h3 x (hmono1 x hx)⟩
      | some cr =>
        have hcrm : cr ∈ childrenIds t n := mem_childrenIds.mpr (Or.inr hr)
        obtain ⟨h5, h6, h7, -⟩ :=
          hchild cr (showDfs t g cl (setVisE n true st)) hcrm h2 h1 h4
        exact ⟨h5, h6, fun x hx => h7 x (h3 x (hmono1 x hx))⟩

set_option maxHeartbeats 1000000 in
theorem hideStep_vis {t : DTree} (hw : WFBasic t) :
    ∀ (g n : Nat) (st : EState), n < numNodes t →
      numNodes t ≤ st.nvis.length → numNodes t - n ≤ g →
      (hideStep t g n st).nvis.length = st.nvis.length ∧
        ∀ x, nvisAt (hideStep t g n st) x = true ↔
          (nvisAt st x = true ∧ ¬ VReach t (fun i => nvisAt st i) n x) := by
  intro g
  induction g with
  | zero => intro n st hn _ hf; exact absurd hf (by omega)
  | succ g ih =>
    intro n st hn hlen hf
    -- processing one child `c` of `n` from an intermediate state `st'`
    have hchild : ∀ (c : Nat) (st' : EState), c ∈ childrenIds t n →
        st'.nvis.length = st.nvis.length →
        ((if nvisAt st' c then hideStep t g c (setVisE c false st')
            else st').nvis.length = st.nvis.length ∧
          ∀ x, nvisAt (if nvisAt st' c then hideStep t g c (setVisE c false st')
              else st') x = true ↔
            (nvisAt st' x = true ∧ ¬ (nvisAt st' c = true ∧
              (x = c ∨ VReach t (fun i => nvisAt st' i) c x)))) := by
      intro c st' hcm hlen'
      have hfacts := child_facts hw hn hcm
      by_cases hv : nvisAt st' c = true
      · have hcb : c < numNodes t := hfacts.1
        have hnc : n < c := hfacts.2.1
        have hcl : c < st'.nvis.length := by omega
        have hlen2 : (setVisE c false st').nvis.length = st'.nvis.length :=
          setVisE_nvis_length st' c false
        obtain ⟨hL, hV⟩ := ih c (setVisE c false st') hcb (by omega) (by omega)
        have hvis2 : ∀ x, nvisAt (setVisE c false st') x =
            if x = c then false else nvisAt st' x := by
          intro x
          rw [nvisAt_setVisE]
          by_cases hx : x = c
          · simp [hx, hcl]
          · simp [hx]
        have hcongr : ∀ x,
            VReach t (fun i => nvisAt (setVisE c false st') i) c x ↔
              VReach t (fun i => nvisAt st' i) c x := by
          refine vreach_congr ?_
          intro y k hk hsd
          have hy : c < y := stepsDown_gt hw hcb hsd hk
          rw [hvis2 y, if_neg (by omega)]
        refine ⟨?_, fun x => ?_⟩
        · rw [if_pos hv, hL, hlen2, hlen']
        · rw [if_pos hv, hV x, hvis2 x, hcongr x]
          by_cases hx : x = c
          · subst hx
            simp [hv]
          · simp only [if_neg hx]
            constructor
            · rintro ⟨ha, hb⟩
              exact ⟨ha, fun hcon => hb (hcon.2.resolve_left hx)⟩
            · rintro ⟨ha, hb⟩
              exact ⟨ha, fun hvr => hb ⟨hv, Or.inr hvr⟩⟩
      · have hv' : nvisAt st' c = false := by
          revert hv; cases nvisAt st' c <;> simp
        rw [if_neg hv]
        refine ⟨hlen', fun x => ?_⟩
        simp [hv']
    rw [hideStep]
    cases hl : (nodeAt t n).left with
    | none =>
      cases hr : (nodeAt t n).right with
      | none =>
        refine ⟨rfl, fun x => ?_⟩
        have hnone : ¬ VReach t (fun i => nvisAt st i) n x := by
          intro h
          obtain ⟨c, hc, -, -⟩ := vreach_via_children.mp h
          rw [mem_childrenIds, hl, hr] at hc
          rcases hc with h | h <;> exact Option.noConfusion h
        exact ⟨fun h => ⟨h, hnone⟩, fun h => h.1⟩
      | some cr =>
        have hcrm : cr ∈ childrenIds t n := mem_childrenIds.mpr (Or.inr hr)
        obtain ⟨h1, h2⟩ := hchild cr st hcrm rfl
        refine ⟨h1, fun x => Iff.trans (h2 x) ?_⟩
        have hiff : VReach t (fun i => nvisAt st i) n x ↔
            (nvisAt st cr = true ∧
              (x = cr ∨ VReach t (fun i => nvisAt st i) cr x)) := by
          rw [vreach_via_children]
          constructor
          · rintro ⟨c, hc, hvc, hd⟩
            rw [mem_childrenIds, hl, hr] at hc
            rcases hc with h | h
            · exact Option.noConfusion h
            · obtain rfl := Option.some.inj h
              exact ⟨hvc, hd⟩
          · rintro ⟨hvc, hd⟩
            exact ⟨cr, hcrm, hvc, hd⟩
        rw [hiff]
    | some cl =>
      have hclm : cl ∈ childrenIds t n := mem_childrenIds.mpr (Or.inl hl)
      obtain ⟨h1, h2⟩ := hchild cl st hclm rfl
      cases hr : (nodeAt t n).right with
      | none =>
        refine ⟨h1, fun x => Iff.trans (h2 x) ?_⟩
        have hiff : VReach t (fun i => nvisAt st i) n x ↔
            (nvisAt st cl = true ∧
              (x = cl ∨ VReach t (fun i => nvisAt st i) cl x)) := by
          rw [vreach_via_children]
          constructor
          · rintro ⟨c, hc, hvc, hd⟩
            rw [mem_childrenIds, hl, hr] at hc
            rcases hc with h | h
            · obtain rfl := Option.some.inj h
              exact ⟨hvc, hd⟩
            · exact Option.noConfusion h
          · rintro ⟨hvc, hd⟩
            exact ⟨cl, hclm, hvc, hd⟩
        rw [hiff]
      | some cr =>
        have hcrm : cr ∈ childrenIds t n := mem_childrenIds.mpr (Or.inr hr)
        have hlr : cl < cr := hw.2.2.2.2.2 n hn cl hl cr hr
        have hne : cl ≠ cr := by omega
        have key : ∀ (s1 : EState), s1.nvis.length = st.nvis.length →
            (∀ x, nvisAt s1 x = true ↔ (nvisAt st x = true ∧
              ¬ (nvisAt st cl = true ∧
                (x = cl ∨ VReach t (fun i => nvisAt st i) cl x)))) →
            ((if nvisAt s1 cr then hideStep t g cr (setVisE cr false s1)
                else s1).nvis.length = st.nvis.length ∧
              ∀ x, nvisAt (if nvisAt s1 cr then
                  hideStep t g cr (setVisE cr false s1) else s1) x = true ↔
                (nvisAt st x = true ∧
                  ¬ VReach t (fun i => nvisAt st i) n x)) := by
          intro s1 hlen1 hch
          obtain ⟨h3, h4⟩ := hchild cr s1 hcrm hlen1
          have hnol : ∀ y k, StepsDown t cr y k →
              ¬ (nvisAt st cl = true ∧
                (y = cl ∨ VReach t (fun i => nvisAt st i) cl y)) := by
            intro y k hsd
            rintro ⟨-, hy | hy⟩
            · subst hy
              exact sibling_desc_disjoint hw hn hcrm hclm (Ne.symm hne)
                y k 0 hsd (StepsDown.refl y)
            · obtain ⟨j, hj, hsd2⟩ := vreach_steps hy
              exact sibling_desc_disjoint hw hn hclm hcrm hne y j k hsd2 hsd
          have hs1_eq : ∀ y, (∃ k, StepsDown t cr y k) →
              nvisAt s1 y = nvisAt st y := by
            intro y hk
            obtain ⟨k, hsd⟩ := hk
            have hno := hnol y k hsd
            cases hcv : nvisAt st y with
            | true => exact (hch y).mpr ⟨hcv, hno⟩
            | false =>
              cases hcv2 : nvisAt s1 y with
              | false => rfl
              | true =>
                have hz := ((hch y).mp hcv2).1
                rw [hcv] at hz
                exact Bool.noConfusion hz
          have hcr_eq : nvisAt s1 cr = nvisAt st cr :=
            hs1_eq cr ⟨0, StepsDown.refl cr⟩
          have hvr_cr : ∀ x, VReach t (fun i => nvisAt s1 i) cr x ↔
              VReach t (fun i => nvisAt st i) cr x :=
            vreach_congr fun y k _ hsd => hs1_eq y ⟨k, hsd⟩
          refine ⟨h3, fun x => Iff.trans (h4 x) ?_⟩
          have hiff : VReach t (fun i => nvisAt st i) n x ↔
              ((nvisAt st cl = true ∧
                  (x = cl ∨ VReach t (fun i => nvisAt st i) cl x)) ∨
                (nvisAt st cr = true ∧
                  (x = cr ∨ VReach t (fun i => nvisAt st i) cr x))) := by
            rw [vreach_via_children]
            constructor
            · rintro ⟨c, hc, hvc, hd⟩
              rw [mem_childrenIds, hl, hr] at hc
              rcases hc with h | h
              · obtain rfl := Option.some.inj h
                exact Or.inl ⟨hvc, hd⟩
              · obtain rfl := Option.some.inj h
                exact Or.inr ⟨hvc, hd⟩
            · rintro (⟨hvc, hd⟩ | ⟨hvc, hd⟩)
              · exact ⟨cl, hclm, hvc, hd⟩
              · exact ⟨cr, hcrm, hvc, hd⟩
          rw [hch x, hcr_eq, hvr_cr x, hiff]
          constructor
          · rintro ⟨⟨ha, hL1⟩, hR1⟩
            exact ⟨ha, fun h => h.elim hL1 hR1⟩
          · rintro ⟨ha, h⟩
            exact ⟨⟨ha, fun hh => h (Or.inl hh)⟩, fun hh => h (Or.inr hh)⟩
        exact key _ h1 h2

theorem set_child_hidden_facts {t : DTree} (hw : WFBasic t) {st : EState} {n : Nat}
    (hn : n < numNodes t) (hlen : numNodes t ≤ st.nvis.length)
    (hc : ConnectedE t st) :
    ConnectedE t (set_child_hidden t n st) ∧
      (set_child_hidden t n st).nvis.length = st.nvis.length := by
  unfold set_child_hidden
  obtain ⟨hL, hV⟩ := hideStep_vis hw (numNodes t) n st hn hlen (by omega)
  refine ⟨?_, hL⟩
  intro i hi h0 hvi
  rw [hV i] at hvi
  rw [hV (parentId t i)]
  obtain ⟨hvi1, hnr⟩ := hvi
  have hp := hc i hi h0 hvi1
  refine ⟨hp, fun hr => hnr ?_⟩
  have hmem : i ∈ childrenIds t (parentId t i) := (nonroot_facts hw hi h0).2
  exact VReach.step hr hmem hvi1

/-- **C9.** In the eager representation the cascading visibility operations
preserve the connectivity invariant (every visible non-root node's parent
visible): `set_child_visible` on a node whose parent is visible (or on the
root), `set_child_hidden` on any node, and `reset`.  (The claim's further
assertion that `set_visiblity` also preserves it is refuted by
`C9_counterexample`: that method copies the supplied bits verbatim.) -/
theorem C9_eager_connectivity {t : DTree} (hw : WFBasic t) (st : EState) (n : Nat)
    (hn : n < numNodes t) (hlen : numNodes t ≤ st.nvis.length)
    (hc : ConnectedE t st) :
    ((n = 0 ∨ nvisAt st (parentId t n) = true) →
      ConnectedE t (set_child_visible t n st)) ∧
    ConnectedE t (set_child_hidden t n st) ∧
    ConnectedE t (resetE t st) := by
  have hhide := set_child_hidden_facts hw hn hlen hc
  refine ⟨fun hg => ?_, hhide.1, ?_⟩
  · exact (showDfs_conn hw DISPLAY_DEPTH n st hn hlen hc hg).1
  · have h0 : 0 < numNodes t := by
      unfold numNodes
      exact List.length_pos.mpr hw.1
    have hh := set_child_hidden_facts hw h0 hlen hc
    exact (showDfs_conn hw DISPLAY_DEPTH 0 (set_child_hidden t 0 st) h0
      (by rw [hh.2]; exact hlen) hh.1 (Or.inl rfl)).1

/-- **C9, counterexample.** `Elements.set_visiblity` copies the supplied bits
into the elements verbatim, with no validation: on the two-node chain,
starting from the fully visible (hence connected) state, the bit string
hiding the root and showing its child yields a state violating the
connectivity invariant.  So it is not the case that after `set_visiblity`
every visible non-root node's parent is visible. -/
theorem C9_counterexample :
    ConnectedE chainT2 ⟨[true, true], [true, true]⟩ ∧
      ¬ ConnectedE chainT2
        (set_visiblity chainT2 ⟨[true, true], [true, true]⟩
          [false, false, true]) :=
  ⟨by decide, by decide⟩

theorem C9_eager_connectivity_witness :
    (WFBasic chainT2 ∧ (1 : Nat) < numNodes chainT2 ∧
        numNodes chainT2 ≤ (EState.mk [true, true] [true, true]).nvis.length ∧
        ConnectedE chainT2 ⟨[true, true], [true, true]⟩) ∧
      (((1 : Nat) = 0 ∨
          nvisAt ⟨[true, true], [true, true]⟩ (parentId chainT2 1) = true) →
        ConnectedE chainT2
          (set_child_visible chainT2 1 ⟨[true, true], [true, true]⟩)) ∧
      ConnectedE chainT2
        (set_child_hidden chainT2 1 ⟨[true, true], [true, true]⟩) ∧
      ConnectedE chainT2 (resetE chainT2 ⟨[true, true], [true, true]⟩) :=
  ⟨⟨by decide, by decide, by decide, by decide⟩,
    C9_eager_connectivity (by decide) ⟨[true, true], [true, true]⟩ 1
      (by decide) (by decide) (by decide)⟩

end DecTree
